import Mathlib

/-!
# JsontoExcel: the decomposition of a JSON document into sheets

A shallow embedding of `processJSON` (src/script.js, lines 10-49) and the
properties of it that the specification states.

Modelling conventions.

* A JSON value is the tree `JSON.parse` returns.  `JVal.obj es` lists the
  members of an object in the order `Object.keys` reports them; the keys of one
  object are pairwise distinct.
* The objects the program builds (`currentSheet`, a row, `sheets`) are
  association lists of their own properties in creation order.  Assigning to an
  existing property keeps its position, assigning to a new one appends it,
  `delete` removes the entry.  `ownEntries` is the order in which such an object
  is enumerated (array indices ascending, then the other names in creation
  order): it is the order of the columns of a row and of the sheets of the
  workbook in the written file.
* `currentSheet` and `sheets` are plain objects, so they inherit the accessor
  `Object.prototype.__proto__`: an assignment to the name `__proto__` creates no
  own property (`assign`).  It does nothing for a scalar and makes an array the
  prototype of `sheets`; that array is seen again only by the read of line 28.
* A string is a sequence of characters; `sliceInit` agrees with `slice(0, -1)`
  when the last character is in the basic plane, as it is in every prefix the
  program builds (they end in an underscore).
* A thrown `TypeError` is the result `none`; numbers are only copied by the
  program, so any carrier serves for them.
-/

namespace JsonToExcel

/-! ## The program -/

/-- A parsed JSON value. -/
inductive JVal where
  | null
  | bool (b : Bool)
  | num (n : Int)
  | str (s : String)
  | arr (xs : List JVal)
  | obj (es : List (String × JVal))

/-- A row record: column name to value, in creation order. -/
abbrev Row := List (String × JVal)

/-- A sheet table: the rows of one sheet. -/
abbrev Table := List Row

/-- The `sheets` object: sheet name to table, in creation order. -/
abbrev Workbook := List (String × Table)

/-- The test `typeof v === 'object'`: true of objects, arrays and `null`. -/
def typeofObject : JVal → Bool
  | .null => true
  | .arr _ => true
  | .obj _ => true
  | _ => false

/-- A string, number or boolean. -/
def isScalar : JVal → Bool
  | .bool _ => true
  | .num _ => true
  | .str _ => true
  | _ => false

/-- The definition of the own property `k` of an object with the value `v`, as
done by an object literal or by an assignment that reaches no setter. -/
def setProp {α : Type} : List (String × α) → String → α → List (String × α)
  | [], k, v => [(k, v)]
  | (k', v') :: t, k, v => if k' = k then (k, v) :: t else (k', v') :: setProp t k v

/-- The read `o[k]`; `none` stands for `undefined`. -/
def getProp {α : Type} : List (String × α) → String → Option α
  | [], _ => none
  | (k', v') :: t, k => if k' = k then some v' else getProp t k

/-- The name of the accessor that plain objects inherit. -/
def protoKey : String := "__proto__"

/-- The assignment `o[k] = v` on a plain object (lines 23, 36 and 42).  For the
name `__proto__`, unless the object has an own property of that name, the
inherited setter runs instead and no own property is created. -/
def assign {α : Type} (o : List (String × α)) (k : String) (v : α) : List (String × α) :=
  if k = protoKey ∧ (getProp o k).isNone = true then o else setProp o k v

/-- The statement `delete o[k]`. -/
def deleteProp {α : Type} : List (String × α) → String → List (String × α)
  | [], _ => []
  | (k', v') :: t, k => if k' = k then t else (k', v') :: deleteProp t k

/-- The numeric value of a string of decimal digits. -/
def digitsValue (cs : List Char) : Nat :=
  cs.foldl (fun n c => 10 * n + (c.toNat - 48)) 0

/-- The array index a property name denotes, if any: a canonical decimal
numeral (no leading zero) below `2^32 - 1`. -/
def arrayIndex? (s : String) : Option Nat :=
  if s.data ≠ [] ∧ s.data.all Char.isDigit = true
      ∧ (s.data.head? ≠ some '0' ∨ s.data.length = 1)
      ∧ digitsValue s.data < 4294967295 then
    some (digitsValue s.data)
  else none

/-- The index of a property name, `0` for a name that is not an index. -/
def indexOf (s : String) : Nat := (arrayIndex? s).getD 0

/-- The own enumerable properties of an object in enumeration order
(`Object.keys`, object spread): array indices in ascending order, then the
remaining names in creation order. -/
def ownEntries {α : Type} (o : List (String × α)) : List (String × α) :=
  List.insertionSort (fun a b => indexOf a.1 ≤ indexOf b.1)
      (o.filter (fun e => (arrayIndex? e.1).isSome))
    ++ o.filter (fun e => !(arrayIndex? e.1).isSome)

/-- The call `s.slice(0, -1)`: the string without its last character. -/
def sliceInit (s : String) : String := ⟨s.data.dropLast⟩

/-- The name `Sheet Data` of the marker column. -/
def sheetDataKey : String := "Sheet Data"

/-- The marker value for the sheet name `name` (line 44). -/
def marker (name : String) : JVal := .str ("SHEET::" ++ name)

/-- The row literal of lines 43-46: the marker first, then the spread of `currentSheet`. -/
def sheetRow (pfx : String) (currentSheet : Row) : Row :=
  (ownEntries currentSheet).foldl (fun row e => setProp row e.1 e.2)
    [(sheetDataKey, marker (sliceInit pfx))]

/-- Lines 40-48: when `currentSheet` has a key, store its one-row table under the
stripped name. -/
def finish (pfx : String) (currentSheet : Row) (sheets : Workbook) : Workbook :=
  if currentSheet.length > 0 then
    assign sheets (sliceInit pfx) [sheetRow pfx currentSheet]
  else sheets

/-- The test of line 21 on the elements of an array: non-empty, and the first
element has `typeof` equal to `'object'`. -/
def isRecords : List JVal → Bool
  | [] => false
  | x :: _ => typeofObject x

/-- Lines 28-29 for one element: push the rows of the temporary sheet onto the
table of `sheetName`, then delete the temporary sheet.  Either read yielding
`undefined` throws.  When `sheetName` is `__proto__` and no own property, the
read yields the prototype, the array that line 23 installed: the push succeeds
and shows in no own property. -/
def mergeTemp (sheets : Workbook) (sheetName newSheetName : String) : Option Workbook :=
  match getProp sheets newSheetName with
  | none => none
  | some rows =>
    match getProp sheets sheetName with
    | some target => some (deleteProp (setProp sheets sheetName (target ++ rows)) newSheetName)
    | none => if sheetName = protoKey then some (deleteProp sheets newSheetName) else none

/-- The name of the temporary sheet of the element at `index` (line 25). -/
def newSheetName (sheetName : String) (index : Nat) : String :=
  sheetName ++ "_" ++ toString (index + 1)

/-- Lines 40-48 after the loop of line 17; a throw inside the loop is passed on. -/
def finishLoop (pfx : String) : Option (Row × Workbook) → Option Workbook
  | none => none
  | some (currentSheet, sheets) => some (finish pfx currentSheet sheets)

/-- The callback leaves `currentSheet` as it is when it only changes `sheets`. -/
def keepSheet (currentSheet : Row) : Option Workbook → Option (Row × Workbook)
  | none => none
  | some sheets => some (currentSheet, sheets)

mutual
/-- The function `processJSON(jsonData, sheets, prefix)`, lines 10-49.  The guard
of line 11 lets only objects and arrays through; the keys of an array are its
indices. -/
def processJSON : JVal → Workbook → String → Option Workbook
  | .obj es, sheets, pfx => finishLoop pfx (forEachKey es pfx [] sheets)
  | .arr xs, sheets, pfx => finishLoop pfx (forEachIndex xs 0 pfx [] sheets)
  | _, sheets, _ => some sheets
/-- The loop of line 17 over the members of an object. -/
def forEachKey : List (String × JVal) → String → Row → Workbook → Option (Row × Workbook)
  | [], _, currentSheet, sheets => some (currentSheet, sheets)
  | (key, sheetData) :: rest, pfx, currentSheet, sheets =>
    match visit key sheetData pfx currentSheet sheets with
    | none => none
    | some (currentSheet', sheets') => forEachKey rest pfx currentSheet' sheets'
/-- The loop of line 17 over the elements of an array, from index `i` on. -/
def forEachIndex : List JVal → Nat → String → Row → Workbook → Option (Row × Workbook)
  | [], _, _, currentSheet, sheets => some (currentSheet, sheets)
  | sheetData :: rest, i, pfx, currentSheet, sheets =>
    match visit (toString i) sheetData pfx currentSheet sheets with
    | none => none
    | some (currentSheet', sheets') => forEachIndex rest (i + 1) pfx currentSheet' sheets'
/-- The callback of lines 18-37 for one key.  The recursive call of line 33 is
written out per shape of `sheetData` (see `visit_eq`): an array or an object
runs the body of `processJSON`, `null` is returned on at once by line 11. -/
def visit : String → JVal → String → Row → Workbook → Option (Row × Workbook)
  | key, .arr items, pfx, currentSheet, sheets =>
    if isRecords items then
      keepSheet currentSheet (mergeItems items 0 (pfx ++ key) (assign sheets (pfx ++ key) []))
    else
      keepSheet currentSheet
        (finishLoop (pfx ++ key ++ "_") (forEachIndex items 0 (pfx ++ key ++ "_") [] sheets))
  | key, .obj es, pfx, currentSheet, sheets =>
    keepSheet currentSheet
      (finishLoop (pfx ++ key ++ "_") (forEachKey es (pfx ++ key ++ "_") [] sheets))
  | _, .null, _, currentSheet, sheets => some (currentSheet, sheets)
  | key, sheetData, _, currentSheet, sheets => some (assign currentSheet key sheetData, sheets)
/-- The inner loop of lines 24-30 over the elements of an array of records,
from index `index` on. -/
def mergeItems : List JVal → Nat → String → Workbook → Option Workbook
  | [], _, _, sheets => some sheets
  | item :: rest, index, sheetName, sheets =>
    match processJSON item sheets (newSheetName sheetName index ++ "_") with
    | none => none
    | some sheets' =>
      match mergeTemp sheets' sheetName (newSheetName sheetName index) with
      | none => none
      | some sheets'' => mergeItems rest (index + 1) sheetName sheets''
end

/-- The test of line 21 on a value: an array that is non-empty and whose first
element has `typeof` equal to `'object'`. -/
def isRecordArray : JVal → Bool
  | .arr items => isRecords items
  | _ => false

/-- The elements of an array (none for another value). -/
def elements : JVal → List JVal
  | .arr items => items
  | _ => []

/-! ## Vocabulary of the statements -/

/-- A non-empty object whose values are all strings, numbers or booleans, whose
keys are pairwise distinct and which has no key `Sheet Data` and no key
`__proto__`. -/
def ScalarObj (e : Row) : Prop :=
  0 < e.length ∧ (∀ p ∈ e, isScalar p.2 = true) ∧ (e.map Prod.fst).Nodup
    ∧ sheetDataKey ∉ e.map Prod.fst ∧ protoKey ∉ e.map Prod.fst

instance (e : Row) : Decidable (ScalarObj e) := by
  unfold ScalarObj; infer_instance

/-- The row the program builds for a scalar-only object decomposed under the
sheet name `name`: the marker, then the pairs of the object. -/
def markedRow (name : String) (e : Row) : Row :=
  (sheetDataKey, marker name) :: ownEntries e

/-- The rows an array of scalar-only records leaves in its sheet, the first
element having index `index`. -/
def markedRows (sheetName : String) : Nat → List Row → Table
  | _, [] => []
  | index, e :: es =>
    markedRow (newSheetName sheetName index) e :: markedRows sheetName (index + 1) es

/-- The members of an object that hold a string, number or boolean. -/
def scalarMembers (es : List (String × JVal)) : Row :=
  es.filter (fun e => isScalar e.2)

/-- The document of the merge example: `items` holds the records `a:1` and `a:2`. -/
def itemsDoc : JVal :=
  .obj [("items", .arr [.obj [("a", .num 1)], .obj [("a", .num 2)]])]

/-- The document in which two sub-trees resolve to the sheet name `a_b`. -/
def collisionDoc : JVal :=
  .obj [("a_b", .obj [("x", .num 1)]), ("a", .obj [("b", .obj [("y", .num 2)])])]

/-- The name `name` starts with the string `p`. -/
def StartsWith (name p : String) : Prop := ∃ s, name = p ++ s

/-- A value that gets no row of its own when it is decomposed: `null` or a
scalar (line 11 returns), or an object or array none of whose keys holds a
string, number or boolean (line 40 finds `currentSheet` empty). -/
def barren : JVal → Bool
  | .obj es => es.all (fun p => !isScalar p.2)
  | .arr xs => xs.all (fun x => !isScalar x)
  | _ => true

/-- The frame of one call: when `processJSON` completes on `v`, the keys of the
workbook stay pairwise distinct, and an entry is left as it was unless its name
starts with the prefix or is the stripped prefix (the latter only when `v` gets
a row of its own). -/
def Framed (v : JVal) : Prop :=
  ∀ (wb : Workbook) (P : String) (wb' : Workbook), processJSON v wb P = some wb' →
    ((wb.map Prod.fst).Nodup → (wb'.map Prod.fst).Nodup)
    ∧ ∀ name, ¬ StartsWith name P → (barren v = false → name ≠ sliceInit P) →
        getProp wb' name = getProp wb name

/-- The document whose only key is the empty string, holding the object `a:1`. -/
def emptyKeyDoc : JVal :=
  .obj [("", .obj [("a", .num 1)])]

/-- The document of the splitting example: `user` holds `name` and the nested
`address`. -/
def userDoc : JVal :=
  .obj [("user", .obj [("name", .str "Al"), ("address", .obj [("city", .str "X")])])]

/-- The properties of an object whose names are array indices, in ascending
order of the index: they are enumerated first. -/
def indexEntries {α : Type} (o : List (String × α)) : List (String × α) :=
  List.insertionSort (fun a b => indexOf a.1 ≤ indexOf b.1)
    (o.filter (fun e => (arrayIndex? e.1).isSome))

/-- The properties of an object whose names are not array indices, in creation
order: they are enumerated after the indices. -/
def plainEntries {α : Type} (o : List (String × α)) : List (String × α) :=
  o.filter (fun e => !(arrayIndex? e.1).isSome)

/-- The order of the indices is total. -/
instance indexOrder_total {α : Type} :
    IsTotal (String × α) (fun a b => indexOf a.1 ≤ indexOf b.1) :=
  ⟨fun a b => Nat.le_total (indexOf a.1) (indexOf b.1)⟩

/-- The order of the indices is transitive. -/
instance indexOrder_trans {α : Type} :
    IsTrans (String × α) (fun a b => indexOf a.1 ≤ indexOf b.1) :=
  ⟨fun _ _ _ h1 h2 => Nat.le_trans h1 h2⟩

/-- The name under which a value gets a row of its own, in a document without
a key `__proto__`: the stripped prefix when one of its keys holds a scalar, no
name otherwise. -/
def ownName (v : JVal) (pfx : String) : List String :=
  if barren v then [] else [sliceInit pfx]

mutual
/-- The sheet names of the sub-trees under the keys of a value, in depth-first
order over the keys as encountered: the sheets under a key come before the sheets
under a later key, the sheet of an array of records before the sheets under its
elements, and the sheets under the keys of a nested object before the sheet of
its own row.  With `temps`, the list also has the temporary name of every
element of an array of records, which lines 28-29 remove again. -/
def namesUnder : Bool → JVal → String → List String
  | temps, .obj es, pfx => namesOfKeys temps es pfx
  | temps, .arr xs, pfx => namesOfIndices temps xs 0 pfx
  | _, _, _ => []
/-- The names under the members of an object, in key order. -/
def namesOfKeys : Bool → List (String × JVal) → String → List String
  | _, [], _ => []
  | temps, (key, v) :: rest, pfx => namesOfVisit temps key v pfx ++ namesOfKeys temps rest pfx
/-- The names under the elements of an array, from index `i` on. -/
def namesOfIndices : Bool → List JVal → Nat → String → List String
  | _, [], _, _ => []
  | temps, v :: rest, i, pfx =>
    namesOfVisit temps (toString i) v pfx ++ namesOfIndices temps rest (i + 1) pfx
/-- The names one key contributes: for an array of records its sheet, then the
names under its elements; for another array or an object the names under its
keys, then the name of its own row; nothing for `null` and the scalars. -/
def namesOfVisit : Bool → String → JVal → String → List String
  | temps, key, .arr items, pfx =>
    if isRecords items then (pfx ++ key) :: namesOfItems temps items 0 (pfx ++ key)
    else namesOfIndices temps items 0 (pfx ++ key ++ "_")
      ++ ownName (.arr items) (pfx ++ key ++ "_")
  | temps, key, .obj es, pfx =>
    namesOfKeys temps es (pfx ++ key ++ "_") ++ ownName (.obj es) (pfx ++ key ++ "_")
  | _, _, _, _ => []
/-- The names under the elements of an array of records, from index `index` on. -/
def namesOfItems : Bool → List JVal → Nat → String → List String
  | _, [], _, _ => []
  | temps, item :: rest, index, sheetName =>
    namesUnder temps item (newSheetName sheetName index ++ "_")
      ++ (if temps then [newSheetName sheetName index] else [])
      ++ namesOfItems temps rest (index + 1) sheetName
end

/-- The sheet names of a document in depth-first post-order, the order that the
statement on the insertion of sheets compares the workbook with: the names under
its keys, then the name of its own row. -/
def postOrder (v : JVal) (pfx : String) : List String :=
  namesUnder false v pfx ++ ownName v pfx

/-- Every name a decomposition writes to: the sheet names in post-order together
with the temporary names of the elements of arrays of records. -/
def assignedNames (v : JVal) (pfx : String) : List String :=
  namesUnder true v pfx ++ ownName v pfx

mutual
/-- No key of any object of the document is `__proto__`. -/
def protoFree : JVal → Bool
  | .obj es => protoFreeMembers es
  | .arr xs => protoFreeElements xs
  | _ => true
/-- No key of the members, or inside their values, is `__proto__`. -/
def protoFreeMembers : List (String × JVal) → Bool
  | [] => true
  | (key, v) :: rest => key != protoKey && protoFree v && protoFreeMembers rest
/-- No key inside the elements is `__proto__`. -/
def protoFreeElements : List JVal → Bool
  | [] => true
  | v :: rest => protoFree v && protoFreeElements rest
end

/-- The insertion order of one call: when `processJSON` completes on a document
without a key `__proto__`, writes to no name twice, to no name the workbook has
and not to the name `__proto__`, the names of the workbook are the earlier ones
followed by the sheet names of the document in post-order. -/
def Ordered (v : JVal) : Prop :=
  ∀ (wb : Workbook) (P : String) (wb' : Workbook), processJSON v wb P = some wb' →
    protoFree v = true → protoKey ∉ assignedNames v P →
    (wb.map Prod.fst ++ assignedNames v P).Nodup →
    wb'.map Prod.fst = wb.map Prod.fst ++ postOrder v P

/-- A document with several root keys, an object nested three deep and an array
of records whose first element has a nested object. -/
def orderDoc : JVal :=
  .obj [("id", .num 7),
    ("user", .obj [("name", .str "Al"),
      ("address", .obj [("city", .str "X"), ("geo", .obj [("lat", .num 1)])])]),
    ("items", .arr [.obj [("a", .num 1), ("d", .obj [("e", .num 2)])], .obj [("a", .num 2)]]),
    ("tags", .obj [("t", .num 1)])]

/-- The names without the temporary ones are among the names with them, in the
same order. -/
def SubNames (v : JVal) : Prop :=
  ∀ pfx, (namesUnder false v pfx).Sublist (namesUnder true v pfx)

/-! ## The callback against the text of lines 21-37 -/

/-- The callback `visit` is the three-way conditional of lines 21-37, with the
recursive call of line 33 being `processJSON` on the value itself. -/
theorem visit_eq (key : String) (sheetData : JVal) (pfx : String) (currentSheet : Row)
    (sheets : Workbook) :
    visit key sheetData pfx currentSheet sheets =
      if isRecordArray sheetData then
        keepSheet currentSheet
          (mergeItems (elements sheetData) 0 (pfx ++ key) (assign sheets (pfx ++ key) []))
      else if typeofObject sheetData then
        keepSheet currentSheet (processJSON sheetData sheets (pfx ++ key ++ "_"))
      else some (assign currentSheet key sheetData, sheets) := by
  cases sheetData with
  | arr items =>
    by_cases h : isRecords items = true
    · simp [visit, isRecordArray, h, elements]
    · simp [visit, isRecordArray, h, typeofObject, processJSON]
  | obj es => simp [visit, isRecordArray, typeofObject, processJSON]
  | null => simp [visit, isRecordArray, typeofObject, processJSON, keepSheet]
  | bool b => simp [visit, isRecordArray, typeofObject]
  | num n => simp [visit, isRecordArray, typeofObject]
  | str s => simp [visit, isRecordArray, typeofObject]

/-! ## Dictionaries and strings -/

theorem assign_of_ne {α : Type} (o : List (String × α)) (k : String) (v : α)
    (h : k ≠ protoKey) : assign o k v = setProp o k v := by
  simp [assign, h]

theorem assign_proto_nil {α : Type} (v : α) : assign ([] : List (String × α)) protoKey v = [] := by
  simp [assign, getProp]

theorem foldl_assign_eq {α : Type} (l o : List (String × α))
    (h : protoKey ∉ l.map Prod.fst) :
    l.foldl (fun row e => assign row e.1 e.2) o = l.foldl (fun row e => setProp row e.1 e.2) o := by
  induction l generalizing o with
  | nil => rfl
  | cons p t ih =>
    simp only [List.map_cons, List.mem_cons, not_or] at h
    simp only [List.foldl_cons, assign_of_ne o p.1 p.2 (fun e => h.1 e.symm)]
    exact ih _ h.2

theorem setProp_fresh {α : Type} (o : List (String × α)) (k : String) (v : α)
    (h : k ∉ o.map Prod.fst) : setProp o k v = o ++ [(k, v)] := by
  induction o with
  | nil => rfl
  | cons p t ih =>
    obtain ⟨k', v'⟩ := p
    simp only [List.map_cons, List.mem_cons, not_or] at h
    have hne : ¬ k' = k := fun e => h.1 e.symm
    simp [setProp, hne, ih h.2]

theorem foldl_setProp_fresh {α : Type} (l o : List (String × α))
    (h : (o.map Prod.fst ++ l.map Prod.fst).Nodup) :
    l.foldl (fun row e => setProp row e.1 e.2) o = o ++ l := by
  induction l generalizing o with
  | nil => simp
  | cons p t ih =>
    have hp : p.1 ∉ o.map Prod.fst := by
      intro hmem
      rw [List.nodup_append] at h
      exact h.2.2 hmem (by simp)
    rw [List.foldl_cons, setProp_fresh o p.1 p.2 hp, ih]
    · simp
    · have : (List.map Prod.fst (o ++ [(p.1, p.2)]) ++ List.map Prod.fst t)
          = List.map Prod.fst o ++ List.map Prod.fst (p :: t) := by simp
      rw [this]; exact h

theorem ownEntries_perm {α : Type} (o : List (String × α)) : (ownEntries o).Perm o := by
  unfold ownEntries
  refine List.Perm.trans (List.Perm.append_right _ (List.perm_insertionSort _ _)) ?_
  exact List.filter_append_perm _ o

theorem sliceInit_append_underscore (s : String) : sliceInit (s ++ "_") = s := by
  unfold sliceInit
  have : (s ++ "_").data = s.data ++ ['_'] := by simp [String.data_append]
  rw [this, List.dropLast_concat]

theorem append_ne_self (s t : String) (h : t.length ≠ 0) : s ++ t ≠ s := by
  intro e
  have := congrArg String.length e
  rw [String.length_append] at this
  omega

theorem newSheetName_ne (sheetName : String) (index : Nat) :
    newSheetName sheetName index ≠ sheetName := by
  unfold newSheetName
  rw [String.append_assoc]
  apply append_ne_self
  rw [String.length_append]
  have : ("_" : String).length = 1 := rfl
  omega

/-! ## Decimal numerals and cancellation -/

theorem append_left_cancel (a b c : String) (h : a ++ b = a ++ c) : b = c := by
  have := congrArg String.data h
  simp only [String.data_append] at this
  exact String.ext (List.append_cancel_left this)

theorem digitChar_ne_underscore (d : Nat) (h : d < 10) : Nat.digitChar d ≠ '_' := by
  revert d; decide

theorem digitChar_value (d : Nat) (h : d < 10) : (Nat.digitChar d).toNat - 48 = d := by
  revert d; decide

theorem toDigitsCore_no_underscore (fuel n : Nat) (ds : List Char) (h : '_' ∉ ds) :
    '_' ∉ Nat.toDigitsCore 10 fuel n ds := by
  induction fuel generalizing n ds with
  | zero => simpa [Nat.toDigitsCore] using h
  | succ f ih =>
    have hd : '_' ∉ Nat.digitChar (n % 10) :: ds := by
      simp only [List.mem_cons, not_or]
      exact ⟨fun e => digitChar_ne_underscore _ (Nat.mod_lt _ (by decide)) e.symm, h⟩
    simp only [Nat.toDigitsCore]
    split
    · exact hd
    · exact ih _ _ hd

theorem toString_no_underscore (n : Nat) : '_' ∉ (toString n).data := by
  show '_' ∉ Nat.toDigitsCore 10 (n + 1) n []
  exact toDigitsCore_no_underscore _ _ _ (by simp)

theorem toDigitsCore_value (fuel n : Nat) (ds : List Char) (h : n < fuel) :
    (Nat.toDigitsCore 10 fuel n ds).foldl (fun m c => 10 * m + (c.toNat - 48)) 0
      = ds.foldl (fun m c => 10 * m + (c.toNat - 48)) n := by
  induction fuel generalizing n ds with
  | zero => omega
  | succ f ih =>
    simp only [Nat.toDigitsCore]
    split
    · rename_i h0
      have hn : n % 10 = n := Nat.mod_eq_of_lt (by omega)
      have hv := digitChar_value (n % 10) (Nat.mod_lt _ (by decide))
      rw [hn] at hv
      simp only [List.foldl_cons, hn, hv, Nat.mul_zero, Nat.zero_add]
    · rename_i h0
      have hlt : n / 10 < f := by omega
      rw [ih _ _ hlt]
      simp only [List.foldl_cons, digitChar_value _ (Nat.mod_lt _ (by decide))]
      congr 1
      omega

theorem digitsValue_toString (n : Nat) : digitsValue (toString n).data = n := by
  show (Nat.toDigitsCore 10 (n + 1) n []).foldl (fun m c => 10 * m + (c.toNat - 48)) 0 = n
  rw [toDigitsCore_value _ _ _ (by omega)]
  rfl

theorem toDigitsCore_digit (fuel n : Nat) (ds : List Char) :
    ∀ c ∈ Nat.toDigitsCore 10 fuel n ds, c ∈ ds ∨ ∃ d, d < 10 ∧ c = Nat.digitChar d := by
  induction fuel generalizing n ds with
  | zero => intro c hc; exact Or.inl (by simpa [Nat.toDigitsCore] using hc)
  | succ f ih =>
    intro c hc
    have hcons : ∀ c ∈ Nat.digitChar (n % 10) :: ds, c ∈ ds ∨ ∃ d, d < 10 ∧ c = Nat.digitChar d := by
      intro c hc
      rcases List.mem_cons.mp hc with e | hm
      · exact Or.inr ⟨n % 10, Nat.mod_lt _ (by decide), e⟩
      · exact Or.inl hm
    simp only [Nat.toDigitsCore] at hc
    split at hc
    · exact hcons c hc
    · rcases ih _ _ c hc with h1 | h1
      · exact hcons c h1
      · exact Or.inr h1

theorem toString_data_digit (n : Nat) :
    ∀ c ∈ (toString n).data, ∃ d, d < 10 ∧ c = Nat.digitChar d := by
  intro c hc
  have h : c ∈ Nat.toDigitsCore 10 (n + 1) n [] := hc
  rcases toDigitsCore_digit _ _ _ c h with h1 | h1
  · simp at h1
  · exact h1

theorem toDigitsCore_ne_nil (fuel n : Nat) (ds : List Char) (h : ds ≠ [] ∨ 0 < fuel) :
    Nat.toDigitsCore 10 fuel n ds ≠ [] := by
  induction fuel generalizing n ds with
  | zero =>
    rcases h with h | h
    · simpa [Nat.toDigitsCore] using h
    · omega
  | succ f ih =>
    simp only [Nat.toDigitsCore]
    split
    · simp
    · exact ih _ _ (Or.inl (by simp))

theorem toString_data_ne_nil (n : Nat) : (toString n).data ≠ [] :=
  toDigitsCore_ne_nil (n + 1) n [] (Or.inr (Nat.succ_pos n))

theorem digitChar_not_in_protoKey : ∀ d, d < 10 → Nat.digitChar d ∉ protoKey.data := by
  decide

/-- A name that contains a decimal numeral is not `__proto__`. -/
theorem numeral_ne_protoKey (a b : String) (n : Nat) : a ++ toString n ++ b ≠ protoKey := by
  intro e
  obtain ⟨c, hc⟩ := List.exists_mem_of_ne_nil _ (toString_data_ne_nil n)
  obtain ⟨d, hd, hcd⟩ := toString_data_digit n c hc
  have hmem : c ∈ (a ++ toString n ++ b).data := by
    simp [String.data_append, hc]
  rw [e, hcd] at hmem
  exact digitChar_not_in_protoKey d hd hmem

theorem newSheetName_ne_protoKey (sheetName : String) (index : Nat) :
    newSheetName sheetName index ≠ protoKey := by
  have := numeral_ne_protoKey (sheetName ++ "_") "" (index + 1)
  simpa [newSheetName] using this

/-! ## Objects whose values are all scalars -/

theorem visit_scalar (key : String) (v : JVal) (pfx : String) (cur : Row) (sheets : Workbook)
    (h : isScalar v = true) : visit key v pfx cur sheets = some (assign cur key v, sheets) := by
  cases v <;> simp [isScalar] at h <;> simp [visit]

theorem forEachKey_scalars (es : Row) (pfx : String) (cur : Row) (sheets : Workbook)
    (h : ∀ p ∈ es, isScalar p.2 = true) :
    forEachKey es pfx cur sheets
      = some (es.foldl (fun row e => assign row e.1 e.2) cur, sheets) := by
  induction es generalizing cur with
  | nil => simp [forEachKey]
  | cons p t ih =>
    obtain ⟨k, v⟩ := p
    have hv : isScalar v = true := h (k, v) (by simp)
    simp only [forEachKey, visit_scalar k v pfx cur sheets hv, List.foldl_cons]
    exact ih _ (fun q hq => h q (by simp [hq]))

theorem sheetRow_fresh (pfx : String) (e : Row) (hnd : (e.map Prod.fst).Nodup)
    (hsd : sheetDataKey ∉ e.map Prod.fst) :
    sheetRow pfx e = markedRow (sliceInit pfx) e := by
  unfold sheetRow markedRow
  have hp := (ownEntries_perm e).map Prod.fst
  rw [foldl_setProp_fresh]
  · rfl
  · simp only [List.map_cons, List.map_nil, List.singleton_append, List.nodup_cons]
    exact ⟨fun hm => hsd (hp.mem_iff.mp hm), hp.nodup_iff.mpr hnd⟩

/-- Decomposing a scalar-only object stores its one marked row under the
stripped name and changes nothing else. -/
theorem processJSON_scalarObj (e : Row) (sheets : Workbook) (pfx : String) (h : ScalarObj e) :
    processJSON (.obj e) sheets pfx
      = some (assign sheets (sliceInit pfx) [markedRow (sliceInit pfx) e]) := by
  obtain ⟨hlen, hsc, hnd, hsd, hpr⟩ := h
  have hcur : e.foldl (fun row p => assign row p.1 p.2) ([] : Row) = e := by
    rw [foldl_assign_eq _ _ hpr, foldl_setProp_fresh] <;> simp [hnd]
  simp [processJSON, forEachKey_scalars e pfx [] sheets hsc, hcur, finishLoop, finish, hlen,
    sheetRow_fresh pfx e hnd hsd]

/-! ## Arrays of scalar-only records -/

theorem markedRows_length (sheetName : String) (index : Nat) (es : List Row) :
    (markedRows sheetName index es).length = es.length := by
  induction es generalizing index with
  | nil => rfl
  | cons e t ih => simp [markedRows, ih]

theorem markedRows_getElem? (sheetName : String) (index : Nat) (es : List Row) (i : Nat) :
    (markedRows sheetName index es)[i]?
      = (es[i]?).map (markedRow (newSheetName sheetName (index + i))) := by
  induction es generalizing index i with
  | nil => simp [markedRows]
  | cons e t ih =>
    cases i with
    | zero => simp [markedRows]
    | succ j =>
      simp only [markedRows, List.getElem?_cons_succ, ih]
      rw [show index + 1 + j = index + (j + 1) by omega]

theorem getProp_setProp_self {α : Type} (o : List (String × α)) (k : String) (v : α) :
    getProp (setProp o k v) k = some v := by
  induction o with
  | nil => simp [setProp, getProp]
  | cons p t ih =>
    obtain ⟨k', v'⟩ := p
    by_cases h : k' = k <;> simp [setProp, getProp, h, ih]

theorem mergeItems_scalarObjs (es : List Row) (index : Nat) (sheetName : String) (acc : Table)
    (h : ∀ e ∈ es, ScalarObj e) :
    mergeItems (es.map JVal.obj) index sheetName [(sheetName, acc)]
      = some [(sheetName, acc ++ markedRows sheetName index es)] := by
  induction es generalizing index acc with
  | nil => simp [mergeItems, markedRows]
  | cons e t ih =>
    have he : ScalarObj e := h e (by simp)
    have hne : ¬ sheetName = newSheetName sheetName index :=
      fun e => newSheetName_ne sheetName index e.symm
    have hne' : ¬ newSheetName sheetName index = sheetName := newSheetName_ne sheetName index
    simp only [List.map_cons, mergeItems, processJSON_scalarObj e _ _ he,
      sliceInit_append_underscore, assign_of_ne _ _ _ (newSheetName_ne_protoKey sheetName index)]
    simp only [setProp, hne, if_false, mergeTemp, getProp, if_true, hne', deleteProp]
    rw [ih (index + 1) _ (fun q hq => h q (by simp [hq]))]
    simp [markedRows]

theorem processJSON_records (k pfx : String) (es : List Row) (hk : pfx ++ k ≠ protoKey)
    (hlen : 0 < es.length) (h : ∀ e ∈ es, ScalarObj e) :
    processJSON (.obj [(k, .arr (es.map JVal.obj))]) [] pfx
      = some [(pfx ++ k, markedRows (pfx ++ k) 0 es)] := by
  have hrec : isRecords (es.map JVal.obj) = true := by
    cases es with
    | nil => simp at hlen
    | cons e t => simp [isRecords, typeofObject]
  simp [processJSON, forEachKey, visit, hrec, assign_of_ne _ _ _ hk, setProp,
    mergeItems_scalarObjs es 0 _ [] h, keepSheet, finishLoop, finish]

/-! ## Nested objects -/

theorem forEachKey_append (l₁ l₂ : List (String × JVal)) (pfx : String) (cur : Row)
    (sheets : Workbook) :
    forEachKey (l₁ ++ l₂) pfx cur sheets
      = (forEachKey l₁ pfx cur sheets).bind (fun r => forEachKey l₂ pfx r.1 r.2) := by
  induction l₁ generalizing cur sheets with
  | nil => simp [forEachKey]
  | cons p t ih =>
    obtain ⟨k, v⟩ := p
    simp only [List.cons_append, forEachKey]
    cases hv : visit k v pfx cur sheets with
    | none => simp
    | some r => simp [ih]

theorem visit_obj (key : String) (es : List (String × JVal)) (pfx : String) (cur : Row)
    (sheets : Workbook) :
    visit key (.obj es) pfx cur sheets
      = keepSheet cur (processJSON (.obj es) sheets (pfx ++ key ++ "_")) := by
  simp [visit, processJSON]

/-- An object made of scalar members around one nested scalar-only object `c`:
the nested object gets its sheet first, then the object's own row follows. -/
theorem processJSON_nested (c pfx : String) (A₁ A₂ B : Row) (sheets : Workbook)
    (hA : ScalarObj (A₁ ++ A₂)) (hB : ScalarObj B) :
    processJSON (.obj (A₁ ++ (c, .obj B) :: A₂)) sheets pfx
      = some (assign (assign sheets (sliceInit (pfx ++ c ++ "_"))
            [markedRow (sliceInit (pfx ++ c ++ "_")) B])
          (sliceInit pfx) [markedRow (sliceInit pfx) (A₁ ++ A₂)]) := by
  obtain ⟨hlen, hsc, hnd, hsd, hpr⟩ := hA
  have h1 : ∀ p ∈ A₁, isScalar p.2 = true := fun p hp => hsc p (by simp [hp])
  have h2 : ∀ p ∈ A₂, isScalar p.2 = true := fun p hp => hsc p (by simp [hp])
  have hv : ∀ cur, visit c (.obj B) pfx cur sheets
      = some (cur, assign sheets (sliceInit (pfx ++ c ++ "_"))
            [markedRow (sliceInit (pfx ++ c ++ "_")) B]) := by
    intro cur
    rw [visit_obj, processJSON_scalarObj B sheets (pfx ++ c ++ "_") hB]
    rfl
  have hcur : (A₁ ++ A₂).foldl (fun row p => assign row p.1 p.2) ([] : Row) = A₁ ++ A₂ := by
    rw [foldl_assign_eq _ _ hpr, foldl_setProp_fresh]
    · simp
    · simpa using hnd
  rw [List.foldl_append] at hcur
  rw [processJSON, forEachKey_append, forEachKey_scalars A₁ pfx [] sheets h1]
  simp only [Option.some_bind, forEachKey, hv, forEachKey_scalars A₂ pfx _ _ h2, hcur,
    finishLoop, finish, hlen, if_true, sheetRow_fresh pfx (A₁ ++ A₂) hnd hsd]

/-! ## What the loop leaves in the accumulator -/

theorem keepSheet_eq_some (cur cur' : Row) (r : Option Workbook) (sheets' : Workbook)
    (h : keepSheet cur r = some (cur', sheets')) : cur' = cur := by
  cases r with
  | none => simp [keepSheet] at h
  | some s => simp [keepSheet] at h; exact h.1.symm

theorem visit_cur (key : String) (v : JVal) (pfx : String) (cur cur' : Row)
    (sheets sheets' : Workbook) (h : visit key v pfx cur sheets = some (cur', sheets')) :
    cur' = if isScalar v = true then assign cur key v else cur := by
  cases v with
  | arr items =>
    simp only [visit] at h
    split at h <;> simpa [isScalar] using keepSheet_eq_some _ _ _ _ h
  | obj es =>
    simp only [visit] at h
    simpa [isScalar] using keepSheet_eq_some _ _ _ _ h
  | null => simp [visit] at h; simp [isScalar, h.1]
  | bool b => simp [visit] at h; simp [isScalar, h.1]
  | num n => simp [visit] at h; simp [isScalar, h.1]
  | str s => simp [visit] at h; simp [isScalar, h.1]

theorem forEachKey_cur (es : List (String × JVal)) (pfx : String) (cur cur' : Row)
    (sheets sheets' : Workbook) (h : forEachKey es pfx cur sheets = some (cur', sheets')) :
    cur' = (scalarMembers es).foldl (fun row e => assign row e.1 e.2) cur := by
  induction es generalizing cur sheets with
  | nil => simp [forEachKey] at h; simp [scalarMembers, h.1]
  | cons p t ih =>
    obtain ⟨k, v⟩ := p
    simp only [forEachKey] at h
    cases hv : visit k v pfx cur sheets with
    | none => simp [hv] at h
    | some r =>
      obtain ⟨c1, s1⟩ := r
      simp only [hv] at h
      have h1 := visit_cur k v pfx cur c1 sheets s1 hv
      have h2 := ih c1 s1 h
      by_cases hs : isScalar v = true
      · simp [scalarMembers, List.filter_cons, hs] at h2 ⊢
        rw [h2, h1]; simp [hs]
      · simp [scalarMembers, List.filter_cons, hs] at h2 ⊢
        rw [h2, h1]; simp [hs]

/-- Whenever the decomposition of an object with distinct keys completes, the
stripped name holds the one-row table built from the scalar members, provided
there is one, none of them is named `Sheet Data` or `__proto__`, and the
stripped name is not `__proto__`. -/
theorem processJSON_own_row (es : List (String × JVal)) (sheets wb : Workbook) (pfx : String)
    (hN : sliceInit pfx ≠ protoKey)
    (hnd : (es.map Prod.fst).Nodup) (hsc : ∃ p ∈ es, isScalar p.2 = true)
    (hsd : ∀ p ∈ es, isScalar p.2 = true → p.1 ≠ sheetDataKey ∧ p.1 ≠ protoKey)
    (hrun : processJSON (.obj es) sheets pfx = some wb) :
    getProp wb (sliceInit pfx) = some [markedRow (sliceInit pfx) (scalarMembers es)] := by
  rw [processJSON] at hrun
  cases hloop : forEachKey es pfx [] sheets with
  | none => simp [hloop, finishLoop] at hrun
  | some r =>
    obtain ⟨cur, s1⟩ := r
    have hsub : (scalarMembers es).Sublist es := List.filter_sublist _
    have hnd' : ((scalarMembers es).map Prod.fst).Nodup := (hsub.map Prod.fst).nodup hnd
    have hpr' : protoKey ∉ (scalarMembers es).map Prod.fst := by
      intro hm
      obtain ⟨p, hp, hpk⟩ := List.mem_map.mp hm
      have hp' := List.mem_filter.mp hp
      exact (hsd p hp'.1 (by simpa using hp'.2)).2 hpk
    have hcur : cur = scalarMembers es := by
      rw [forEachKey_cur es pfx [] cur sheets s1 hloop, foldl_assign_eq _ _ hpr',
        foldl_setProp_fresh]
      · simp
      · simpa using hnd'
    have hlen : 0 < (scalarMembers es).length := by
      obtain ⟨p, hp, hps⟩ := hsc
      exact List.length_pos_of_mem (List.mem_filter.mpr ⟨hp, by simpa using hps⟩)
    have hsd' : sheetDataKey ∉ (scalarMembers es).map Prod.fst := by
      intro hm
      obtain ⟨p, hp, hpk⟩ := List.mem_map.mp hm
      have hp' := List.mem_filter.mp hp
      exact (hsd p hp'.1 (by simpa using hp'.2)).1 hpk
    simp only [hloop, finishLoop, Option.some.injEq] at hrun
    subst hcur
    rw [← hrun]
    simp only [finish, hlen, if_true, gt_iff_lt, sheetRow_fresh pfx _ hnd' hsd',
      assign_of_ne _ _ _ hN]
    exact getProp_setProp_self _ _ _

/-! ## Induction over JSON values -/

/-- Structural induction over JSON values: a property that holds of `null` and
the scalars, of an array when it holds of its elements, and of an object when it
holds of its member values, holds of every value. -/
theorem JVal.induct {Q : JVal → Prop} (hnull : Q .null) (hbool : ∀ b, Q (.bool b))
    (hnum : ∀ n, Q (.num n)) (hstr : ∀ s, Q (.str s))
    (harr : ∀ xs, (∀ x ∈ xs, Q x) → Q (.arr xs))
    (hobj : ∀ es, (∀ p ∈ es, Q p.2) → Q (.obj es)) : ∀ v, Q v
  | .null => hnull
  | .bool b => hbool b
  | .num n => hnum n
  | .str s => hstr s
  | .arr xs => harr xs (fun x _ => JVal.induct hnull hbool hnum hstr harr hobj x)
  | .obj es => hobj es (fun p _ => JVal.induct hnull hbool hnum hstr harr hobj p.2)
termination_by v => sizeOf v
decreasing_by
  all_goals simp_wf
  · have := List.sizeOf_lt_of_mem ‹x ∈ xs›
    omega
  · have h1 := List.sizeOf_lt_of_mem ‹p ∈ es›
    have h2 : sizeOf p.2 < sizeOf p := by
      cases p; simp
    omega

/-! ## Reads after writes -/

theorem getProp_setProp_ne {α : Type} (o : List (String × α)) (k name : String) (v : α)
    (h : name ≠ k) : getProp (setProp o k v) name = getProp o name := by
  induction o with
  | nil => simp [setProp, getProp, h.symm]
  | cons p t ih =>
    obtain ⟨k', v'⟩ := p
    by_cases hk : k' = k
    · subst hk
      simp [setProp, getProp, h.symm]
    · by_cases hn : k' = name
      · subst hn
        simp [setProp, getProp, hk]
      · simp [setProp, getProp, hk, hn, ih]

theorem getProp_deleteProp_ne {α : Type} (o : List (String × α)) (k name : String)
    (h : name ≠ k) : getProp (deleteProp o k) name = getProp o name := by
  induction o with
  | nil => simp [deleteProp, getProp]
  | cons p t ih =>
    obtain ⟨k', v'⟩ := p
    by_cases hk : k' = k
    · subst hk
      simp [deleteProp, getProp, h.symm]
    · by_cases hn : k' = name
      · subst hn
        simp [deleteProp, getProp, hk]
      · simp [deleteProp, getProp, hk, hn, ih]

theorem getProp_eq_none {α : Type} (o : List (String × α)) (name : String) :
    getProp o name = none ↔ name ∉ o.map Prod.fst := by
  induction o with
  | nil => simp [getProp]
  | cons p t ih =>
    obtain ⟨k', v'⟩ := p
    by_cases hn : k' = name
    · simp [getProp, hn]
    · have hn' : ¬ name = k' := fun e => hn e.symm
      simp [getProp, hn, hn', ih]

theorem mem_keys_setProp {α : Type} (o : List (String × α)) (k x : String) (v : α) :
    x ∈ (setProp o k v).map Prod.fst ↔ x ∈ o.map Prod.fst ∨ x = k := by
  induction o with
  | nil => simp [setProp]
  | cons p t ih =>
    obtain ⟨k', v'⟩ := p
    by_cases hk : k' = k
    · subst hk
      simp only [setProp, if_true, List.map_cons, List.mem_cons]
      tauto
    · simp only [setProp, hk, if_false, List.map_cons, List.mem_cons, ih]
      tauto

theorem nodup_setProp {α : Type} (o : List (String × α)) (k : String) (v : α)
    (h : (o.map Prod.fst).Nodup) : ((setProp o k v).map Prod.fst).Nodup := by
  induction o with
  | nil => simp [setProp]
  | cons p t ih =>
    obtain ⟨k', v'⟩ := p
    simp only [List.map_cons, List.nodup_cons] at h
    by_cases hk : k' = k
    · subst hk
      simpa [setProp] using h
    · simp only [setProp, hk, if_false, List.map_cons, List.nodup_cons]
      refine ⟨fun hm => ?_, ih h.2⟩
      rcases (mem_keys_setProp t k k' v).mp hm with h1 | h1
      · exact h.1 h1
      · exact hk h1

theorem getProp_assign_ne {α : Type} (o : List (String × α)) (k name : String) (v : α)
    (h : name ≠ k) : getProp (assign o k v) name = getProp o name := by
  unfold assign
  split
  · rfl
  · exact getProp_setProp_ne o k name v h

theorem nodup_assign {α : Type} (o : List (String × α)) (k : String) (v : α)
    (h : (o.map Prod.fst).Nodup) : ((assign o k v).map Prod.fst).Nodup := by
  unfold assign
  split
  · exact h
  · exact nodup_setProp o k v h

theorem deleteProp_sublist {α : Type} (o : List (String × α)) (k : String) :
    (deleteProp o k).Sublist o := by
  induction o with
  | nil => simp [deleteProp]
  | cons p t ih =>
    obtain ⟨k', v'⟩ := p
    by_cases hk : k' = k
    · simp [deleteProp, hk]
    · simp [deleteProp, hk, ih]

theorem nodup_deleteProp {α : Type} (o : List (String × α)) (k : String)
    (h : (o.map Prod.fst).Nodup) : ((deleteProp o k).map Prod.fst).Nodup :=
  ((deleteProp_sublist o k).map Prod.fst).nodup h

theorem getProp_deleteProp_self {α : Type} (o : List (String × α)) (k : String)
    (h : (o.map Prod.fst).Nodup) : getProp (deleteProp o k) k = none := by
  induction o with
  | nil => simp [deleteProp, getProp]
  | cons p t ih =>
    obtain ⟨k', v'⟩ := p
    simp only [List.map_cons, List.nodup_cons] at h
    by_cases hk : k' = k
    · subst hk
      simp only [deleteProp, if_true]
      exact (getProp_eq_none t k').mpr h.1
    · simp [deleteProp, getProp, hk, ih h.2]

/-! ## Names and their beginnings -/

theorem startsWith_refl (p : String) : StartsWith p p := ⟨"", by simp⟩

theorem startsWith_append (name p q : String) (h : StartsWith name (p ++ q)) :
    StartsWith name p := by
  obtain ⟨s, hs⟩ := h
  exact ⟨q ++ s, by rw [hs, String.append_assoc]⟩

theorem length_le_of_startsWith (name p : String) (h : StartsWith name p) :
    p.length ≤ name.length := by
  obtain ⟨s, hs⟩ := h
  rw [hs, String.length_append]
  omega

theorem sliceInit_length (s : String) : (sliceInit s).length = s.length - 1 := by
  show (s.data.dropLast).length = s.data.length - 1
  exact List.length_dropLast s.data

theorem not_startsWith_sliceInit (p : String) (h : p ≠ "") : ¬ StartsWith (sliceInit p) p := by
  intro hs
  have h1 := length_le_of_startsWith _ _ hs
  rw [sliceInit_length] at h1
  have h2 : p.length ≠ 0 := by
    intro h0
    apply h
    cases p with
    | mk d =>
      simp [String.length] at h0
      simp [h0]
  omega

/-! ## The frame of a call -/

theorem keepSheet_eq_some_iff (cur cur' : Row) (r : Option Workbook) (sheets' : Workbook) :
    keepSheet cur r = some (cur', sheets') ↔ cur' = cur ∧ r = some sheets' := by
  cases r with
  | none => simp [keepSheet]
  | some s =>
    simp only [keepSheet, Option.some.injEq, Prod.mk.injEq]
    constructor
    · rintro ⟨h1, h2⟩; exact ⟨h1.symm, h2⟩
    · rintro ⟨h1, h2⟩; exact ⟨h1.symm, h2⟩

theorem visit_arr_plain (key : String) (items : List JVal) (pfx : String) (cur : Row)
    (sheets : Workbook) (h : isRecords items = false) :
    visit key (.arr items) pfx cur sheets
      = keepSheet cur (processJSON (.arr items) sheets (pfx ++ key ++ "_")) := by
  simp [visit, processJSON, h]

theorem visit_arr_records (key : String) (items : List JVal) (pfx : String) (cur : Row)
    (sheets : Workbook) (h : isRecords items = true) :
    visit key (.arr items) pfx cur sheets
      = keepSheet cur (mergeItems items 0 (pfx ++ key) (assign sheets (pfx ++ key) [])) := by
  simp [visit, h]

theorem newSheetName_startsWith (sheetName : String) (index : Nat) :
    StartsWith (newSheetName sheetName index) sheetName :=
  ⟨"_" ++ toString (index + 1), by simp [newSheetName, String.append_assoc]⟩

theorem mergeTemp_frame (wb wb' : Workbook) (s t : String) (h : mergeTemp wb s t = some wb') :
    ((wb.map Prod.fst).Nodup → (wb'.map Prod.fst).Nodup)
    ∧ ∀ name, name ≠ s → name ≠ t → getProp wb' name = getProp wb name := by
  unfold mergeTemp at h
  cases h2 : getProp wb t with
  | none => simp [h2] at h
  | some rows =>
    cases h1 : getProp wb s with
    | none =>
      simp only [h1, h2] at h
      split at h
      · simp only [Option.some.injEq] at h
        subst h
        exact ⟨fun hn => nodup_deleteProp _ _ hn,
          fun name _ ht => getProp_deleteProp_ne _ _ _ ht⟩
      · simp at h
    | some target =>
      simp only [h1, h2, Option.some.injEq] at h
      subst h
      refine ⟨fun hn => nodup_deleteProp _ _ (nodup_setProp _ _ _ hn), fun name hs ht => ?_⟩
      rw [getProp_deleteProp_ne _ _ _ ht, getProp_setProp_ne _ _ _ _ hs]

theorem mergeItems_frame (items : List JVal) (hQ : ∀ x ∈ items, Framed x) (index : Nat)
    (s : String) (wb wb' : Workbook) (h : mergeItems items index s wb = some wb') :
    ((wb.map Prod.fst).Nodup → (wb'.map Prod.fst).Nodup)
    ∧ ∀ name, ¬ StartsWith name s → getProp wb' name = getProp wb name := by
  induction items generalizing index wb with
  | nil =>
    simp only [mergeItems, Option.some.injEq] at h
    subst h
    exact ⟨id, fun _ _ => rfl⟩
  | cons item rest ih =>
    simp only [mergeItems] at h
    cases h1 : processJSON item wb (newSheetName s index ++ "_") with
    | none => simp [h1] at h
    | some wb1 =>
      simp only [h1] at h
      cases h2 : mergeTemp wb1 s (newSheetName s index) with
      | none => simp [h2] at h
      | some wb2 =>
        simp only [h2] at h
        have f1 := hQ item (by simp) wb _ wb1 h1
        have f2 := mergeTemp_frame wb1 wb2 _ _ h2
        have f3 := ih (fun x hx => hQ x (by simp [hx])) (index + 1) wb2 h
        refine ⟨fun hn => f3.1 (f2.1 (f1.1 hn)), fun name hname => ?_⟩
        have hnew : ¬ StartsWith name (newSheetName s index) := fun hc => by
          obtain ⟨u, hu⟩ := newSheetName_startsWith s index
          rw [hu] at hc
          exact hname (startsWith_append _ _ _ hc)
        have hne1 : name ≠ newSheetName s index := fun e =>
          hnew (e ▸ startsWith_refl _)
        have hne2 : name ≠ s := fun e => hname (e ▸ startsWith_refl _)
        rw [f3.2 name hname, f2.2 name hne2 hne1]
        apply f1.2 name
        · exact fun hc => hnew (startsWith_append _ _ _ hc)
        · intro _
          rw [sliceInit_append_underscore]
          exact hne1

theorem finish_frame (pfx : String) (cur : Row) (wb : Workbook) :
    ((wb.map Prod.fst).Nodup → ((finish pfx cur wb).map Prod.fst).Nodup)
    ∧ ∀ name, (cur ≠ [] → name ≠ sliceInit pfx) →
        getProp (finish pfx cur wb) name = getProp wb name := by
  unfold finish
  by_cases hc : cur.length > 0
  · simp only [hc, if_true]
    refine ⟨nodup_assign _ _ _, fun name hn => getProp_assign_ne _ _ _ _ (hn ?_)⟩
    intro e
    simp [e] at hc
  · simp [hc]

/-- The frame of the callback: it changes only entries whose name starts with
the prefix followed by the key. -/
theorem visit_frame (key : String) (v : JVal) (hv : Framed v)
    (hel : ∀ x ∈ elements v, Framed x) (pfx : String) (cur cur' : Row) (wb wb' : Workbook)
    (h : visit key v pfx cur wb = some (cur', wb')) :
    ((wb.map Prod.fst).Nodup → (wb'.map Prod.fst).Nodup)
    ∧ ∀ name, ¬ StartsWith name (pfx ++ key) → getProp wb' name = getProp wb name := by
  have nested : ∀ w, processJSON v wb (pfx ++ key ++ "_") = some w →
      ((wb.map Prod.fst).Nodup → (w.map Prod.fst).Nodup)
      ∧ ∀ name, ¬ StartsWith name (pfx ++ key) → getProp w name = getProp wb name := by
    intro w hw
    have f := hv wb _ w hw
    refine ⟨f.1, fun name hname => f.2 name (fun hc => hname (startsWith_append _ _ _ hc)) ?_⟩
    intro _
    rw [sliceInit_append_underscore]
    exact fun e => hname (e ▸ startsWith_refl _)
  cases v with
  | arr items =>
    by_cases hr : isRecords items = true
    · rw [visit_arr_records _ _ _ _ _ hr, keepSheet_eq_some_iff] at h
      have f := mergeItems_frame items hel 0 _ _ _ h.2
      refine ⟨fun hn => f.1 (nodup_assign _ _ _ hn), fun name hname => ?_⟩
      rw [f.2 name hname]
      exact getProp_assign_ne _ _ _ _ (fun e => hname (e ▸ startsWith_refl _))
    · rw [visit_arr_plain _ _ _ _ _ (by simpa using hr), keepSheet_eq_some_iff] at h
      exact nested _ h.2
  | obj es =>
    rw [visit_obj, keepSheet_eq_some_iff] at h
    exact nested _ h.2
  | null =>
    simp only [visit, Option.some.injEq, Prod.mk.injEq] at h
    rw [← h.2]; exact ⟨id, fun _ _ => rfl⟩
  | bool b =>
    simp only [visit, Option.some.injEq, Prod.mk.injEq] at h
    rw [← h.2]; exact ⟨id, fun _ _ => rfl⟩
  | num n =>
    simp only [visit, Option.some.injEq, Prod.mk.injEq] at h
    rw [← h.2]; exact ⟨id, fun _ _ => rfl⟩
  | str s =>
    simp only [visit, Option.some.injEq, Prod.mk.injEq] at h
    rw [← h.2]; exact ⟨id, fun _ _ => rfl⟩

theorem forEachKey_frame (es : List (String × JVal))
    (hQ : ∀ p ∈ es, Framed p.2 ∧ ∀ x ∈ elements p.2, Framed x) (pfx : String)
    (cur cur' : Row) (wb wb' : Workbook) (h : forEachKey es pfx cur wb = some (cur', wb')) :
    ((wb.map Prod.fst).Nodup → (wb'.map Prod.fst).Nodup)
    ∧ ∀ name, (∀ p ∈ es, ¬ StartsWith name (pfx ++ p.1)) →
        getProp wb' name = getProp wb name := by
  induction es generalizing cur wb with
  | nil =>
    simp only [forEachKey, Option.some.injEq, Prod.mk.injEq] at h
    rw [← h.2]; exact ⟨id, fun _ _ => rfl⟩
  | cons p t ih =>
    obtain ⟨k, v⟩ := p
    simp only [forEachKey] at h
    cases hv : visit k v pfx cur wb with
    | none => simp [hv] at h
    | some r =>
      obtain ⟨c1, w1⟩ := r
      simp only [hv] at h
      have hk := hQ (k, v) (by simp)
      have f1 := visit_frame k v hk.1 hk.2 pfx cur c1 wb w1 hv
      have f2 := ih (fun q hq => hQ q (by simp [hq])) c1 w1 h
      refine ⟨fun hn => f2.1 (f1.1 hn), fun name hname => ?_⟩
      rw [f2.2 name (fun q hq => hname q (by simp [hq])), f1.2 name (hname (k, v) (by simp))]

theorem forEachIndex_frame (xs : List JVal)
    (hQ : ∀ x ∈ xs, Framed x ∧ ∀ y ∈ elements x, Framed y) (i : Nat) (pfx : String)
    (cur cur' : Row) (wb wb' : Workbook) (h : forEachIndex xs i pfx cur wb = some (cur', wb')) :
    ((wb.map Prod.fst).Nodup → (wb'.map Prod.fst).Nodup)
    ∧ (∀ name, ¬ StartsWith name pfx → getProp wb' name = getProp wb name)
    ∧ ((∀ x ∈ xs, isScalar x = false) → cur' = cur) := by
  induction xs generalizing i cur wb with
  | nil =>
    simp only [forEachIndex, Option.some.injEq, Prod.mk.injEq] at h
    rw [← h.2, ← h.1]; exact ⟨id, fun _ _ => rfl, fun _ => rfl⟩
  | cons v t ih =>
    simp only [forEachIndex] at h
    cases hv : visit (toString i) v pfx cur wb with
    | none => simp [hv] at h
    | some r =>
      obtain ⟨c1, w1⟩ := r
      simp only [hv] at h
      have hk := hQ v (by simp)
      have f1 := visit_frame (toString i) v hk.1 hk.2 pfx cur c1 wb w1 hv
      have f2 := ih (fun q hq => hQ q (by simp [hq])) (i + 1) c1 w1 h
      refine ⟨fun hn => f2.1 (f1.1 hn), fun name hname => ?_, fun hs => ?_⟩
      · rw [f2.2.1 name hname, f1.2 name (fun hc => hname (startsWith_append _ _ _ hc))]
      · have hc1 := visit_cur (toString i) v pfx cur c1 wb w1 hv
        rw [hs v (by simp)] at hc1
        rw [f2.2.2 (fun x hx => hs x (by simp [hx])), hc1]
        simp

theorem scalarMembers_of_barren (es : List (String × JVal)) (h : barren (.obj es) = true) :
    scalarMembers es = [] := by
  simp only [barren, List.all_eq_true] at h
  simp only [scalarMembers, List.filter_eq_nil_iff]
  intro p hp
  have := h p hp
  simpa using this

theorem framed_leaf (v : JVal) (hv : ∀ wb P, processJSON v wb P = some wb) : Framed v := by
  intro wb P wb' h
  rw [hv, Option.some.injEq] at h
  subst h
  exact ⟨id, fun _ _ _ => rfl⟩

/-- Every JSON value is framed, and so are the elements of every array. -/
theorem framed_all : ∀ v, Framed v ∧ ∀ x ∈ elements v, Framed x := by
  apply JVal.induct
  · exact ⟨framed_leaf _ (fun _ _ => rfl), by simp [elements]⟩
  · intro b
    exact ⟨framed_leaf _ (fun _ _ => rfl), by simp [elements]⟩
  · intro n
    exact ⟨framed_leaf _ (fun _ _ => rfl), by simp [elements]⟩
  · intro s
    exact ⟨framed_leaf _ (fun _ _ => rfl), by simp [elements]⟩
  · intro xs ih
    refine ⟨fun wb P wb' h => ?_, fun x hx => (ih x hx).1⟩
    simp only [processJSON] at h
    cases hl : forEachIndex xs 0 P [] wb with
    | none => simp [hl, finishLoop] at h
    | some r =>
      obtain ⟨c1, w1⟩ := r
      simp only [hl, finishLoop, Option.some.injEq] at h
      subst h
      have f1 := forEachIndex_frame xs ih 0 P [] c1 wb w1 hl
      have f2 := finish_frame P c1 w1
      refine ⟨fun hn => f2.1 (f1.1 hn), fun name hname hb => ?_⟩
      rw [f2.2 name ?_, f1.2.1 name hname]
      intro hc
      apply hb
      by_contra hbar
      apply hc
      apply f1.2.2
      intro x hx
      have hbar' : barren (.arr xs) = true := by simpa using hbar
      simp only [barren, List.all_eq_true] at hbar'
      simpa using hbar' x hx
  · intro es ih
    refine ⟨fun wb P wb' h => ?_, by simp [elements]⟩
    simp only [processJSON] at h
    cases hl : forEachKey es P [] wb with
    | none => simp [hl, finishLoop] at h
    | some r =>
      obtain ⟨c1, w1⟩ := r
      simp only [hl, finishLoop, Option.some.injEq] at h
      subst h
      have f1 := forEachKey_frame es ih P [] c1 wb w1 hl
      have f2 := finish_frame P c1 w1
      refine ⟨fun hn => f2.1 (f1.1 hn), fun name hname hb => ?_⟩
      rw [f2.2 name ?_, f1.2 name (fun p _ hc => hname (startsWith_append _ _ _ hc))]
      intro hc
      apply hb
      by_contra hbar
      apply hc
      have hbar' : barren (.obj es) = true := by simpa using hbar
      rw [forEachKey_cur es P [] c1 wb w1 hl, scalarMembers_of_barren es hbar']
      rfl

/-! ## An element without a row of its own -/

theorem not_startsWith_newSheetName (s : String) (i j : Nat) :
    ¬ StartsWith (newSheetName s i) (newSheetName s j ++ "_") := by
  rintro ⟨t, ht⟩
  have h1 : (s ++ "_") ++ toString (i + 1)
      = (s ++ "_") ++ (toString (j + 1) ++ "_" ++ t) := by
    simpa [newSheetName, String.append_assoc] using ht
  have h2 := append_left_cancel _ _ _ h1
  have h3 := toString_no_underscore (i + 1)
  rw [h2] at h3
  apply h3
  simp [String.data_append]

theorem mergeTemp_none (wb : Workbook) (s t : String) (h : getProp wb t = none) :
    mergeTemp wb s t = none := by
  unfold mergeTemp
  simp [h]

theorem mergeTemp_deleted (wb wb' : Workbook) (s t : String)
    (h : mergeTemp wb s t = some wb') (hn : (wb.map Prod.fst).Nodup) :
    getProp wb' t = none := by
  unfold mergeTemp at h
  cases h2 : getProp wb t with
  | none => simp [h2] at h
  | some rows =>
    cases h1 : getProp wb s with
    | none =>
      simp only [h1, h2] at h
      split at h
      · simp only [Option.some.injEq] at h
        subst h
        exact getProp_deleteProp_self _ _ hn
      · simp at h
    | some target =>
      simp only [h1, h2, Option.some.injEq] at h
      subst h
      exact getProp_deleteProp_self _ _ (nodup_setProp _ _ _ hn)

/-- The inner loop throws as soon as it reaches an element that gets no row of
its own, when the workbook holds only the sheet of the array and sheets of the
sub-trees of earlier elements. -/
theorem mergeItems_throws (items : List JVal) (hbar : ∃ x ∈ items, barren x = true)
    (index : Nat) (s : String) (wb : Workbook) (hn : (wb.map Prod.fst).Nodup)
    (hinv : ∀ name, getProp wb name ≠ none →
      name = s ∨ ∃ j, j < index ∧ StartsWith name (newSheetName s j ++ "_")) :
    mergeItems items index s wb = none := by
  induction items generalizing index wb with
  | nil => simp at hbar
  | cons item rest ih =>
    simp only [mergeItems]
    cases h1 : processJSON item wb (newSheetName s index ++ "_") with
    | none => rfl
    | some wb1 =>
      simp only []
      have f1 := (framed_all item).1 wb _ wb1 h1
      have hnot : ¬ StartsWith (newSheetName s index) (newSheetName s index ++ "_") :=
        not_startsWith_newSheetName s index index
      have hold : getProp wb (newSheetName s index) = none := by
        by_contra hne
        rcases hinv _ hne with e | ⟨j, _, hj⟩
        · exact newSheetName_ne s index e
        · exact not_startsWith_newSheetName s index j hj
      by_cases hb : barren item = true
      · have : getProp wb1 (newSheetName s index) = none := by
          rw [f1.2 _ hnot (fun hf => by simp [hb] at hf)]
          exact hold
        rw [mergeTemp_none _ _ _ this]
      · cases h2 : mergeTemp wb1 s (newSheetName s index) with
        | none => rfl
        | some wb2 =>
          simp only []
          have f2 := mergeTemp_frame wb1 wb2 _ _ h2
          apply ih
          · obtain ⟨x, hx, hxb⟩ := hbar
            rcases List.mem_cons.mp hx with e | hmem
            · subst e; exact absurd hxb hb
            · exact ⟨x, hmem, hxb⟩
          · exact f2.1 (f1.1 hn)
          · intro name hne
            by_cases e1 : name = s
            · exact Or.inl e1
            · right
              by_cases e2 : name = newSheetName s index
              · subst e2
                exact absurd (mergeTemp_deleted wb1 wb2 _ _ h2 (f1.1 hn)) hne
              · rw [f2.2 name e1 e2] at hne
                by_cases e3 : StartsWith name (newSheetName s index ++ "_")
                · exact ⟨index, Nat.lt_succ_self _, e3⟩
                · rw [f1.2 name e3 (fun _ => by
                    rw [sliceInit_append_underscore]; exact e2)] at hne
                  rcases hinv name hne with e | ⟨j, hj, hs⟩
                  · exact absurd e e1
                  · exact ⟨j, Nat.lt_succ_of_lt hj, hs⟩

/-! ## The order of the columns of a row -/

theorem ownEntries_eq {α : Type} (o : List (String × α)) :
    ownEntries o = indexEntries o ++ plainEntries o := rfl

theorem mem_indexEntries {α : Type} (o : List (String × α)) (p : String × α)
    (h : p ∈ indexEntries o) : (arrayIndex? p.1).isSome = true := by
  have := (List.perm_insertionSort _ _).subset h
  exact (List.mem_filter.mp this).2

theorem mem_plainEntries {α : Type} (o : List (String × α)) (p : String × α)
    (h : p ∈ plainEntries o) : (arrayIndex? p.1).isSome = false := by
  have := (List.mem_filter.mp h).2
  simpa using this

/-- The columns of a row made of a first property that is no array index and
the spread of an object: the indices of the object in ascending order, then the
first property, then the other properties of the object. -/
theorem ownEntries_cons_ownEntries {α : Type} (m : String × α) (o : List (String × α))
    (hm : (arrayIndex? m.1).isSome = false) :
    ownEntries (m :: ownEntries o) = indexEntries o ++ m :: plainEntries o := by
  have h1 : (indexEntries o).filter (fun e => (arrayIndex? e.1).isSome) = indexEntries o :=
    List.filter_eq_self.mpr (fun p hp => mem_indexEntries o p hp)
  have h2 : (plainEntries o).filter (fun e => (arrayIndex? e.1).isSome) = [] :=
    List.filter_eq_nil_iff.mpr (fun p hp => by simp [mem_plainEntries o p hp])
  have h3 : (indexEntries o).filter (fun e => !(arrayIndex? e.1).isSome) = [] :=
    List.filter_eq_nil_iff.mpr (fun p hp => by simp [mem_indexEntries o p hp])
  have h4 : (plainEntries o).filter (fun e => !(arrayIndex? e.1).isSome) = plainEntries o :=
    List.filter_eq_self.mpr (fun p hp => by simp [mem_plainEntries o p hp])
  have h5 : List.insertionSort (fun a b : String × α => indexOf a.1 ≤ indexOf b.1)
      (indexEntries o) = indexEntries o :=
    List.Sorted.insertionSort_eq (List.sorted_insertionSort _ _)
  rw [ownEntries_eq o]
  conv_lhs => unfold ownEntries
  simp only [List.filter_cons, hm, Bool.false_eq_true, if_false, Bool.not_false, if_true,
    List.filter_append, h1, h2, h3, h4, List.append_nil, List.nil_append, h5]

/-- An object none of whose names is an array index is enumerated in creation
order. -/
theorem ownEntries_of_plain {α : Type} (o : List (String × α))
    (h : ∀ p ∈ o, (arrayIndex? p.1).isSome = false) : ownEntries o = o := by
  have h1 : o.filter (fun e => (arrayIndex? e.1).isSome) = [] :=
    List.filter_eq_nil_iff.mpr (fun p hp => by simp [h p hp])
  have h2 : o.filter (fun e => !(arrayIndex? e.1).isSome) = o :=
    List.filter_eq_self.mpr (fun p hp => by simp [h p hp])
  unfold ownEntries
  rw [h1, h2]
  rfl

/-! ## The order in which sheets are inserted -/

theorem keys_setProp_fresh {α : Type} (o : List (String × α)) (k : String) (v : α)
    (h : k ∉ o.map Prod.fst) : (setProp o k v).map Prod.fst = o.map Prod.fst ++ [k] := by
  rw [setProp_fresh o k v h]
  simp

theorem keys_setProp_mem {α : Type} (o : List (String × α)) (k : String) (v : α)
    (h : k ∈ o.map Prod.fst) : (setProp o k v).map Prod.fst = o.map Prod.fst := by
  induction o with
  | nil => simp at h
  | cons p t ih =>
    obtain ⟨k', v'⟩ := p
    by_cases hk : k' = k
    · simp [setProp, hk]
    · have ht : k ∈ t.map Prod.fst := by
        rcases List.mem_cons.mp h with e | e
        · exact absurd e.symm hk
        · exact e
      simp [setProp, hk, ih ht]

theorem keys_assign_fresh {α : Type} (o : List (String × α)) (k : String) (v : α)
    (hk : k ≠ protoKey) (h : k ∉ o.map Prod.fst) :
    (assign o k v).map Prod.fst = o.map Prod.fst ++ [k] := by
  rw [assign_of_ne _ _ _ hk, keys_setProp_fresh _ _ _ h]

theorem keys_deleteProp {α : Type} (o : List (String × α)) (k : String) :
    (deleteProp o k).map Prod.fst = (o.map Prod.fst).erase k := by
  induction o with
  | nil => simp [deleteProp]
  | cons p t ih =>
    obtain ⟨k', v'⟩ := p
    by_cases hk : k' = k
    · simp [deleteProp, hk]
    · simp [deleteProp, hk, ih, List.erase_cons_tail]

theorem erase_append_last (l : List String) (k : String) (h : k ∉ l) :
    (l ++ [k]).erase k = l := by
  rw [List.erase_append_right _ h]
  simp

theorem namesOfItems_sub (items : List JVal) (hQ : ∀ x ∈ items, SubNames x) (index : Nat)
    (s : String) : (namesOfItems false items index s).Sublist (namesOfItems true items index s) := by
  induction items generalizing index with
  | nil => simp [namesOfItems]
  | cons x t ih =>
    simp only [namesOfItems]
    exact ((hQ x (by simp) _).append (by simp)).append
      (ih (fun y hy => hQ y (by simp [hy])) (index + 1))

theorem namesOfVisit_sub (key : String) (v : JVal) (hv : SubNames v)
    (hel : ∀ x ∈ elements v, SubNames x) (pfx : String) :
    (namesOfVisit false key v pfx).Sublist (namesOfVisit true key v pfx) := by
  cases v with
  | arr items =>
    simp only [namesOfVisit]
    split
    · exact (namesOfItems_sub items hel 0 _).cons₂ _
    · have := hv (pfx ++ key ++ "_")
      simp only [namesUnder] at this
      exact this.append (List.Sublist.refl _)
  | obj es =>
    simp only [namesOfVisit]
    have := hv (pfx ++ key ++ "_")
    simp only [namesUnder] at this
    exact this.append (List.Sublist.refl _)
  | null => simp [namesOfVisit]
  | bool b => simp [namesOfVisit]
  | num n => simp [namesOfVisit]
  | str s => simp [namesOfVisit]

theorem namesOfKeys_sub (es : List (String × JVal))
    (hQ : ∀ p ∈ es, SubNames p.2 ∧ ∀ x ∈ elements p.2, SubNames x) (pfx : String) :
    (namesOfKeys false es pfx).Sublist (namesOfKeys true es pfx) := by
  induction es with
  | nil => simp [namesOfKeys]
  | cons p t ih =>
    obtain ⟨k, v⟩ := p
    simp only [namesOfKeys]
    have hk := hQ (k, v) (by simp)
    exact (namesOfVisit_sub k v hk.1 hk.2 pfx).append (ih (fun q hq => hQ q (by simp [hq])))

theorem namesOfIndices_sub (xs : List JVal)
    (hQ : ∀ x ∈ xs, SubNames x ∧ ∀ y ∈ elements x, SubNames y) (i : Nat) (pfx : String) :
    (namesOfIndices false xs i pfx).Sublist (namesOfIndices true xs i pfx) := by
  induction xs generalizing i with
  | nil => simp [namesOfIndices]
  | cons v t ih =>
    simp only [namesOfIndices]
    have hk := hQ v (by simp)
    exact (namesOfVisit_sub (toString i) v hk.1 hk.2 pfx).append
      (ih (fun q hq => hQ q (by simp [hq])) (i + 1))

theorem subNames_all : ∀ v, SubNames v ∧ ∀ x ∈ elements v, SubNames x := by
  apply JVal.induct
  · exact ⟨fun _ => by simp [namesUnder], by simp [elements]⟩
  · intro b
    exact ⟨fun _ => by simp [namesUnder], by simp [elements]⟩
  · intro n
    exact ⟨fun _ => by simp [namesUnder], by simp [elements]⟩
  · intro s
    exact ⟨fun _ => by simp [namesUnder], by simp [elements]⟩
  · intro xs ih
    refine ⟨fun pfx => ?_, fun x hx => (ih x hx).1⟩
    simp only [namesUnder]
    exact namesOfIndices_sub xs ih 0 pfx
  · intro es ih
    refine ⟨fun pfx => ?_, by simp [elements]⟩
    simp only [namesUnder]
    exact namesOfKeys_sub es ih pfx

theorem namesUnder_sub (v : JVal) (pfx : String) :
    (namesUnder false v pfx).Sublist (namesUnder true v pfx) :=
  (subNames_all v).1 pfx

theorem namesOfVisit_sublist (key : String) (v : JVal) (pfx : String) :
    (namesOfVisit false key v pfx).Sublist (namesOfVisit true key v pfx) :=
  namesOfVisit_sub key v (subNames_all v).1 (subNames_all v).2 pfx

theorem setProp_length_pos {α : Type} (o : List (String × α)) (k : String) (v : α) :
    0 < (setProp o k v).length := by
  cases o with
  | nil => simp [setProp]
  | cons p t =>
    obtain ⟨k', v'⟩ := p
    by_cases h : k' = k <;> simp [setProp, h]

theorem visit_cur_pos (key : String) (v : JVal) (pfx : String) (cur cur' : Row)
    (wb wb' : Workbook) (h : visit key v pfx cur wb = some (cur', wb'))
    (hk : isScalar v = true → key ≠ protoKey) :
    0 < cur'.length ↔ (0 < cur.length ∨ isScalar v = true) := by
  rw [visit_cur key v pfx cur cur' wb wb' h]
  by_cases hs : isScalar v = true
  · simp only [hs, if_true, or_true, iff_true]
    rw [assign_of_ne _ _ _ (hk hs)]
    exact setProp_length_pos _ _ _
  · simp [hs]

theorem forEachKey_cur_pos (es : List (String × JVal)) (pfx : String) (cur cur' : Row)
    (wb wb' : Workbook) (h : forEachKey es pfx cur wb = some (cur', wb'))
    (hk : ∀ p ∈ es, isScalar p.2 = true → p.1 ≠ protoKey) :
    0 < cur'.length ↔ (0 < cur.length ∨ ∃ p ∈ es, isScalar p.2 = true) := by
  induction es generalizing cur wb with
  | nil =>
    simp only [forEachKey, Option.some.injEq, Prod.mk.injEq] at h
    simp [h.1]
  | cons p t ih =>
    obtain ⟨k, v⟩ := p
    simp only [forEachKey] at h
    cases hv : visit k v pfx cur wb with
    | none => simp [hv] at h
    | some r =>
      obtain ⟨c1, w1⟩ := r
      simp only [hv] at h
      rw [ih c1 w1 h (fun q hq => hk q (by simp [hq])),
        visit_cur_pos k v pfx cur c1 wb w1 hv (hk (k, v) (by simp))]
      simp only [List.mem_cons, exists_eq_or_imp]
      tauto

theorem toString_ne_protoKey (i : Nat) : toString i ≠ protoKey := by
  have := numeral_ne_protoKey "" "" i
  simpa using this

theorem forEachIndex_cur_pos (xs : List JVal) (i : Nat) (pfx : String) (cur cur' : Row)
    (wb wb' : Workbook) (h : forEachIndex xs i pfx cur wb = some (cur', wb')) :
    0 < cur'.length ↔ (0 < cur.length ∨ ∃ x ∈ xs, isScalar x = true) := by
  induction xs generalizing i cur wb with
  | nil =>
    simp only [forEachIndex, Option.some.injEq, Prod.mk.injEq] at h
    simp [h.1]
  | cons v t ih =>
    simp only [forEachIndex] at h
    cases hv : visit (toString i) v pfx cur wb with
    | none => simp [hv] at h
    | some r =>
      obtain ⟨c1, w1⟩ := r
      simp only [hv] at h
      rw [ih (i + 1) c1 w1 h,
        visit_cur_pos (toString i) v pfx cur c1 wb w1 hv (fun _ => toString_ne_protoKey i)]
      simp only [List.mem_cons, exists_eq_or_imp]
      tauto

theorem protoFreeMembers_iff (es : List (String × JVal)) :
    protoFreeMembers es = true ↔ ∀ p ∈ es, p.1 ≠ protoKey ∧ protoFree p.2 = true := by
  induction es with
  | nil => simp [protoFreeMembers]
  | cons p t ih =>
    obtain ⟨k, v⟩ := p
    simp only [protoFreeMembers, Bool.and_eq_true, ih, List.mem_cons, forall_eq_or_imp,
      bne_iff_ne, ne_eq]

theorem protoFreeElements_iff (xs : List JVal) :
    protoFreeElements xs = true ↔ ∀ x ∈ xs, protoFree x = true := by
  induction xs with
  | nil => simp [protoFreeElements]
  | cons v t ih =>
    simp only [protoFreeElements, Bool.and_eq_true, ih, List.mem_cons, forall_eq_or_imp]

theorem barren_obj_false_iff (es : List (String × JVal)) :
    barren (.obj es) = false ↔ ∃ p ∈ es, isScalar p.2 = true := by
  rw [← Bool.not_eq_true]
  simp [barren]

theorem barren_arr_false_iff (xs : List JVal) :
    barren (.arr xs) = false ↔ ∃ x ∈ xs, isScalar x = true := by
  rw [← Bool.not_eq_true]
  simp [barren]

/-- The last step of a call: the own row is inserted after everything else,
when the value has one. -/
theorem keys_finish (v : JVal) (pfx : String) (cur : Row) (wb : Workbook)
    (hcur : 0 < cur.length ↔ barren v = false) (hp : protoKey ∉ ownName v pfx)
    (hnd : (wb.map Prod.fst ++ ownName v pfx).Nodup) :
    (finish pfx cur wb).map Prod.fst = wb.map Prod.fst ++ ownName v pfx := by
  unfold finish
  by_cases hb : barren v = false
  · have hc : cur.length > 0 := hcur.mpr hb
    simp only [ownName, hb, Bool.false_eq_true, if_false] at hp hnd ⊢
    simp only [hc, if_true]
    apply keys_assign_fresh
    · exact fun e => hp (by simp [e])
    · intro hm
      have := List.nodup_append.mp hnd
      exact this.2.2 hm (by simp)
  · have hc : ¬ cur.length > 0 := fun h => hb (hcur.mp h)
    have hb' : barren v = true := by simpa using hb
    simp [ownName, hb', hc]

theorem getProp_of_mem_keys {α : Type} (o : List (String × α)) (k : String)
    (h : k ∈ o.map Prod.fst) : ∃ v, getProp o k = some v := by
  cases hg : getProp o k with
  | none => exact absurd h ((getProp_eq_none o k).mp hg)
  | some v => exact ⟨v, rfl⟩

/-- The inner loop of lines 24-30 leaves, after the names it found, the names
under the elements, without their temporary sheets. -/
theorem mergeItems_ordered (items : List JVal) (hQ : ∀ x ∈ items, Ordered x) (index : Nat)
    (s : String) (wb wb' : Workbook) (h : mergeItems items index s wb = some wb')
    (hpf : ∀ x ∈ items, protoFree x = true) (hs : s ∈ wb.map Prod.fst)
    (hp : protoKey ∉ namesOfItems true items index s)
    (hnd : (wb.map Prod.fst ++ namesOfItems true items index s).Nodup) :
    wb'.map Prod.fst = wb.map Prod.fst ++ namesOfItems false items index s := by
  induction items generalizing index wb with
  | nil =>
    simp only [mergeItems, Option.some.injEq] at h
    subst h
    simp [namesOfItems]
  | cons item rest ih =>
    simp only [mergeItems] at h
    cases h1 : processJSON item wb (newSheetName s index ++ "_") with
    | none => simp [h1] at h
    | some wb1 =>
      simp only [h1] at h
      cases h2 : mergeTemp wb1 s (newSheetName s index) with
      | none => simp [h2] at h
      | some wb2 =>
        simp only [h2] at h
        simp only [namesOfItems, if_true, List.append_assoc] at hp hnd
        simp only [namesOfItems, Bool.false_eq_true, if_false, List.append_nil]
        have hown : (ownName item (newSheetName s index ++ "_")).Sublist
            [newSheetName s index] := by
          unfold ownName
          split
          · simp
          · rw [sliceInit_append_underscore]
        have hsub : (assignedNames item (newSheetName s index ++ "_")).Sublist
            (namesUnder true item (newSheetName s index ++ "_") ++ ([newSheetName s index]
              ++ namesOfItems true rest (index + 1) s)) := by
          unfold assignedNames
          exact (List.Sublist.refl _).append
            (hown.trans (List.sublist_append_left _ _))
        have ho := hQ item (by simp) wb _ wb1 h1 (hpf item (by simp))
          (fun hm => hp (hsub.subset hm))
          (((List.Sublist.refl _).append hsub).nodup hnd)
        -- the temporary sheet exists, so the element has a row of its own
        have ht : newSheetName s index ∈ wb1.map Prod.fst := by
          by_contra hm
          rw [mergeTemp_none _ _ _ ((getProp_eq_none _ _).mpr hm)] at h2
          cases h2
        have hnd' := List.nodup_append.mp hnd
        have hnd2 := List.nodup_append.mp hnd'.2.1
        have htwb : newSheetName s index ∉ wb.map Prod.fst :=
          fun hm => hnd'.2.2 hm (by simp)
        have htu : newSheetName s index ∉ namesUnder true item (newSheetName s index ++ "_") :=
          fun hm => hnd2.2.2 hm (by simp)
        have htu' : newSheetName s index ∉ namesUnder false item (newSheetName s index ++ "_") :=
          fun hm => htu ((namesUnder_sub _ _).subset hm)
        have hown' : ownName item (newSheetName s index ++ "_") = [newSheetName s index] := by
          unfold ownName
          split
          · rename_i hb
            rw [ho, postOrder, ownName, if_pos hb] at ht
            simp only [List.append_nil, List.mem_append] at ht
            rcases ht with ht | ht
            · exact absurd ht htwb
            · exact absurd ht htu'
          · rw [sliceInit_append_underscore]
        rw [postOrder, hown'] at ho
        -- the merge keeps the names and removes the temporary one
        have hs1 : s ∈ wb1.map Prod.fst := by
          rw [ho]; simp [hs]
        have hk2 : wb2.map Prod.fst
            = wb.map Prod.fst ++ namesUnder false item (newSheetName s index ++ "_") := by
          obtain ⟨rows, hrows⟩ := getProp_of_mem_keys _ _ ht
          obtain ⟨target, htarget⟩ := getProp_of_mem_keys _ _ hs1
          simp only [mergeTemp, hrows, htarget, Option.some.injEq] at h2
          rw [← h2, keys_deleteProp, keys_setProp_mem _ _ _ hs1, ho, ← List.append_assoc]
          apply erase_append_last
          simp only [List.mem_append, not_or]
          exact ⟨htwb, htu'⟩
        have hrest := ih (fun x hx => hQ x (by simp [hx])) (index + 1) wb2 h
          (fun x hx => hpf x (by simp [hx])) (by rw [hk2]; simp [hs])
          (fun hm => hp (by simp [hm]))
          (by
            rw [hk2, List.append_assoc]
            refine (List.Sublist.append (List.Sublist.refl _) ?_).nodup hnd
            exact (namesUnder_sub _ _).append (List.sublist_append_right _ _))
        rw [hrest, hk2, List.append_assoc]

/-- The callback inserts the names of its key after the names it found. -/
theorem visit_ordered (key : String) (v : JVal) (hv : Ordered v)
    (hel : ∀ x ∈ elements v, Ordered x) (pfx : String) (cur cur' : Row) (wb wb' : Workbook)
    (h : visit key v pfx cur wb = some (cur', wb')) (hpf : protoFree v = true)
    (hp : protoKey ∉ namesOfVisit true key v pfx)
    (hnd : (wb.map Prod.fst ++ namesOfVisit true key v pfx).Nodup) :
    wb'.map Prod.fst = wb.map Prod.fst ++ namesOfVisit false key v pfx := by
  cases v with
  | arr items =>
    by_cases hr : isRecords items = true
    · rw [visit_arr_records _ _ _ _ _ hr, keepSheet_eq_some_iff] at h
      simp only [namesOfVisit, hr, if_true] at hp hnd ⊢
      have hnd' := List.nodup_append.mp hnd
      have hfresh : pfx ++ key ∉ wb.map Prod.fst := fun hm => hnd'.2.2 hm (by simp)
      have hk0 := keys_assign_fresh wb (pfx ++ key) ([] : Table)
        (fun e => hp (by simp [e])) hfresh
      have hpf' : ∀ x ∈ items, protoFree x = true := by
        simp only [protoFree] at hpf
        exact (protoFreeElements_iff items).mp hpf
      have := mergeItems_ordered items hel 0 (pfx ++ key) _ _ h.2 hpf'
        (by rw [hk0]; simp) (fun hm => hp (by simp [hm]))
        (by rw [hk0]; simpa using hnd)
      rw [this, hk0]
      simp
    · have hr' : isRecords items = false := by simpa using hr
      rw [visit_arr_plain _ _ _ _ _ hr', keepSheet_eq_some_iff] at h
      simp only [namesOfVisit, hr', Bool.false_eq_true, if_false] at hp hnd ⊢
      exact hv wb _ wb' h.2 hpf hp hnd
  | obj es =>
    rw [visit_obj, keepSheet_eq_some_iff] at h
    simp only [namesOfVisit] at hp hnd ⊢
    exact hv wb _ wb' h.2 hpf hp hnd
  | null =>
    simp only [visit, Option.some.injEq, Prod.mk.injEq] at h
    rw [← h.2]; simp [namesOfVisit]
  | bool b =>
    simp only [visit, Option.some.injEq, Prod.mk.injEq] at h
    rw [← h.2]; simp [namesOfVisit]
  | num n =>
    simp only [visit, Option.some.injEq, Prod.mk.injEq] at h
    rw [← h.2]; simp [namesOfVisit]
  | str s =>
    simp only [visit, Option.some.injEq, Prod.mk.injEq] at h
    rw [← h.2]; simp [namesOfVisit]

theorem forEachKey_ordered (es : List (String × JVal))
    (hQ : ∀ p ∈ es, Ordered p.2 ∧ ∀ x ∈ elements p.2, Ordered x) (pfx : String)
    (cur cur' : Row) (wb wb' : Workbook) (h : forEachKey es pfx cur wb = some (cur', wb'))
    (hpf : ∀ p ∈ es, protoFree p.2 = true) (hp : protoKey ∉ namesOfKeys true es pfx)
    (hnd : (wb.map Prod.fst ++ namesOfKeys true es pfx).Nodup) :
    wb'.map Prod.fst = wb.map Prod.fst ++ namesOfKeys false es pfx := by
  induction es generalizing cur wb with
  | nil =>
    simp only [forEachKey, Option.some.injEq, Prod.mk.injEq] at h
    rw [← h.2]; simp [namesOfKeys]
  | cons p t ih =>
    obtain ⟨k, v⟩ := p
    simp only [forEachKey] at h
    cases hv : visit k v pfx cur wb with
    | none => simp [hv] at h
    | some r =>
      obtain ⟨c1, w1⟩ := r
      simp only [hv] at h
      simp only [namesOfKeys] at hp hnd ⊢
      have hk := hQ (k, v) (by simp)
      have h1 := visit_ordered k v hk.1 hk.2 pfx cur c1 wb w1 hv (hpf (k, v) (by simp))
        (fun hm => hp (by simp [hm]))
        (((List.Sublist.refl _).append (List.sublist_append_left _ _)).nodup hnd)
      have h2 := ih (fun q hq => hQ q (by simp [hq])) c1 w1 h
        (fun q hq => hpf q (by simp [hq])) (fun hm => hp (by simp [hm]))
        (by
          rw [h1, List.append_assoc]
          exact ((List.Sublist.refl _).append
            ((namesOfVisit_sublist k v pfx).append (List.Sublist.refl _))).nodup hnd)
      rw [h2, h1, List.append_assoc]

theorem forEachIndex_ordered (xs : List JVal)
    (hQ : ∀ x ∈ xs, Ordered x ∧ ∀ y ∈ elements x, Ordered y) (i : Nat) (pfx : String)
    (cur cur' : Row) (wb wb' : Workbook) (h : forEachIndex xs i pfx cur wb = some (cur', wb'))
    (hpf : ∀ x ∈ xs, protoFree x = true) (hp : protoKey ∉ namesOfIndices true xs i pfx)
    (hnd : (wb.map Prod.fst ++ namesOfIndices true xs i pfx).Nodup) :
    wb'.map Prod.fst = wb.map Prod.fst ++ namesOfIndices false xs i pfx := by
  induction xs generalizing i cur wb with
  | nil =>
    simp only [forEachIndex, Option.some.injEq, Prod.mk.injEq] at h
    rw [← h.2]; simp [namesOfIndices]
  | cons v t ih =>
    simp only [forEachIndex] at h
    cases hv : visit (toString i) v pfx cur wb with
    | none => simp [hv] at h
    | some r =>
      obtain ⟨c1, w1⟩ := r
      simp only [hv] at h
      simp only [namesOfIndices] at hp hnd ⊢
      have hk := hQ v (by simp)
      have h1 := visit_ordered (toString i) v hk.1 hk.2 pfx cur c1 wb w1 hv (hpf v (by simp))
        (fun hm => hp (by simp [hm]))
        (((List.Sublist.refl _).append (List.sublist_append_left _ _)).nodup hnd)
      have h2 := ih (fun q hq => hQ q (by simp [hq])) (i + 1) c1 w1 h
        (fun q hq => hpf q (by simp [hq])) (fun hm => hp (by simp [hm]))
        (by
          rw [h1, List.append_assoc]
          exact ((List.Sublist.refl _).append
            ((namesOfVisit_sublist (toString i) v pfx).append (List.Sublist.refl _))).nodup hnd)
      rw [h2, h1, List.append_assoc]

theorem ordered_leaf (v : JVal) (hv : ∀ wb P, processJSON v wb P = some wb)
    (hn : ∀ P, postOrder v P = []) : Ordered v := by
  intro wb P wb' h _ _ _
  rw [hv, Option.some.injEq] at h
  subst h
  simp [hn]

/-- Every JSON value is decomposed in post-order, and so are the elements of
every array. -/
theorem ordered_all : ∀ v, Ordered v ∧ ∀ x ∈ elements v, Ordered x := by
  apply JVal.induct
  · exact ⟨ordered_leaf _ (fun _ _ => rfl) (fun _ => rfl), by simp [elements]⟩
  · intro b
    exact ⟨ordered_leaf _ (fun _ _ => rfl) (fun _ => rfl), by simp [elements]⟩
  · intro n
    exact ⟨ordered_leaf _ (fun _ _ => rfl) (fun _ => rfl), by simp [elements]⟩
  · intro s
    exact ⟨ordered_leaf _ (fun _ _ => rfl) (fun _ => rfl), by simp [elements]⟩
  · intro xs ih
    refine ⟨fun wb P wb' h hpf hp hnd => ?_, fun x hx => (ih x hx).1⟩
    simp only [processJSON] at h
    cases hl : forEachIndex xs 0 P [] wb with
    | none => simp [hl, finishLoop] at h
    | some r =>
      obtain ⟨c1, w1⟩ := r
      simp only [hl, finishLoop, Option.some.injEq] at h
      subst h
      simp only [assignedNames, namesUnder] at hp hnd
      simp only [postOrder, namesUnder]
      have hpf' : ∀ x ∈ xs, protoFree x = true := by
        simp only [protoFree] at hpf
        exact (protoFreeElements_iff xs).mp hpf
      have h1 := forEachIndex_ordered xs ih 0 P [] c1 wb w1 hl hpf'
        (fun hm => hp (by simp [hm]))
        (by rw [← List.append_assoc] at hnd; exact (List.nodup_append.mp hnd).1)
      have hc := forEachIndex_cur_pos xs 0 P [] c1 wb w1 hl
      rw [keys_finish (.arr xs) P c1 w1 (by rw [hc, barren_arr_false_iff]; simp)
        (fun hm => hp (by simp [hm])), h1, List.append_assoc]
      rw [h1, List.append_assoc]
      exact ((List.Sublist.refl _).append
        ((namesUnder_sub (.arr xs) P).append (List.Sublist.refl _))).nodup hnd
  · intro es ih
    refine ⟨fun wb P wb' h hpf hp hnd => ?_, by simp [elements]⟩
    simp only [processJSON] at h
    cases hl : forEachKey es P [] wb with
    | none => simp [hl, finishLoop] at h
    | some r =>
      obtain ⟨c1, w1⟩ := r
      simp only [hl, finishLoop, Option.some.injEq] at h
      subst h
      simp only [assignedNames, namesUnder] at hp hnd
      simp only [postOrder, namesUnder]
      have hpf' := (protoFreeMembers_iff es).mp (by simpa only [protoFree] using hpf)
      have h1 := forEachKey_ordered es ih P [] c1 wb w1 hl (fun p hp => (hpf' p hp).2)
        (fun hm => hp (by simp [hm]))
        (by rw [← List.append_assoc] at hnd; exact (List.nodup_append.mp hnd).1)
      have hc := forEachKey_cur_pos es P [] c1 wb w1 hl (fun p hp _ => (hpf' p hp).1)
      rw [keys_finish (.obj es) P c1 w1 (by rw [hc, barren_obj_false_iff]; simp)
        (fun hm => hp (by simp [hm])), h1, List.append_assoc]
      rw [h1, List.append_assoc]
      exact ((List.Sublist.refl _).append
        ((namesUnder_sub (.obj es) P).append (List.Sublist.refl _))).nodup hnd

/-! ## The claims -/

/-- C1, as stated, fails: for the document with `items` holding the records
`a:1` and `a:2` the rows of sheet `items` are not the bare records; each row
also carries the `Sheet Data` marker of its element. -/
theorem C1_rows_are_not_bare_records :
    processJSON itemsDoc [] ""
        = some [("items", [[("Sheet Data", .str "SHEET::items_1"), ("a", .num 1)],
                           [("Sheet Data", .str "SHEET::items_2"), ("a", .num 2)]])]
      ∧ ¬ ∃ wb, processJSON itemsDoc [] "" = some wb
          ∧ getProp wb "items" = some [[("a", .num 1)], [("a", .num 2)]] := by
  refine ⟨rfl, ?_⟩
  rintro ⟨wb, h1, h2⟩
  rw [show processJSON itemsDoc [] "" = some [("items",
    [[("Sheet Data", .str "SHEET::items_1"), ("a", .num 1)],
     [("Sheet Data", .str "SHEET::items_2"), ("a", .num 2)]])] from rfl] at h1
  cases h1
  simp [getProp] at h2

/-- C1, amended: for every key `k` other than `__proto__` and every non-empty
array of non-empty scalar-only objects that have no key `Sheet Data` and no key
`__proto__`, `processJSON` on the object holding the array under `k`, from the
empty workbook with the empty prefix, leaves exactly one sheet, named `k`, with
one row per element in element order: row `i` is the marker `SHEET::k_(i+1)`
under `Sheet Data` followed by the pairs of element `i` (the properties of the
row in creation order).  No intermediate sheet remains. -/
theorem C1_array_of_records_merge (k : String) (es : List Row) (hk : k ≠ "__proto__")
    (hlen : 0 < es.length) (h : ∀ e ∈ es, ScalarObj e) :
    ∃ rows, processJSON (.obj [(k, .arr (es.map JVal.obj))]) [] "" = some [(k, rows)]
      ∧ rows.length = es.length
      ∧ ∀ i (hi : i < es.length), rows[i]?
          = some (("Sheet Data", JVal.str ("SHEET::" ++ (k ++ "_" ++ toString (i + 1))))
              :: ownEntries es[i]) := by
  refine ⟨markedRows k 0 es, ?_, markedRows_length _ _ _, ?_⟩
  · have := processJSON_records k "" es (by simpa using hk) hlen h
    simpa using this
  · intro i hi
    rw [markedRows_getElem?, List.getElem?_eq_getElem hi]
    simp [markedRow, newSheetName, marker, sheetDataKey]

/-- C1, amended, at the document with `items` holding the records `a:1` and `a:2`. -/
theorem C1_array_of_records_merge_witness :
    (("items" : String) ≠ "__proto__" ∧ 0 < [[("a", JVal.num 1)], [("a", JVal.num 2)]].length
      ∧ ∀ e ∈ [[("a", JVal.num 1)], [("a", JVal.num 2)]], ScalarObj e)
    ∧ ∃ rows, processJSON (.obj [("items", .arr ([[("a", .num 1)], [("a", .num 2)]].map JVal.obj))])
          [] "" = some [("items", rows)]
      ∧ rows.length = [[("a", JVal.num 1)], [("a", JVal.num 2)]].length
      ∧ ∀ i (hi : i < [[("a", JVal.num 1)], [("a", JVal.num 2)]].length), rows[i]?
          = some (("Sheet Data", JVal.str ("SHEET::" ++ ("items" ++ "_" ++ toString (i + 1))))
              :: ownEntries [[("a", JVal.num 1)], [("a", JVal.num 2)]][i]) :=
  ⟨⟨by decide, by decide, by decide⟩,
    C1_array_of_records_merge "items" [[("a", .num 1)], [("a", .num 2)]] (by decide) (by decide)
      (by decide)⟩

/-- C2, at the failing inputs: an element whose only key is `__proto__` is a
non-empty scalar-only object without a key `Sheet Data`, yet its pair is never
stored, the element gets no temporary sheet and the merge of line 28 throws;
and under the key `__proto__` the array gets no entry at all, so the workbook
stays empty.  The same array under the key `k` with the element `a:1` is merged
as the claim says. -/
theorem C2_proto_key_breaks_merge :
    processJSON (.obj [("k", .arr [.obj [("__proto__", .num 1)]])]) [] "" = none
      ∧ processJSON (.obj [("__proto__", .arr [.obj [("a", .num 1)]])]) [] "" = some []
      ∧ processJSON (.obj [("k", .arr [.obj [("a", .num 1)]])]) [] ""
          = some [("k", [[("Sheet Data", .str "SHEET::k_1"), ("a", .num 1)]])] :=
  ⟨rfl, rfl, rfl⟩

/-- C3, at the failing inputs: with `k` being `__proto__` the row of `A` is
assigned to `sheets.__proto__`, which creates no entry, so only the sheet of `B`
remains; and a member `__proto__` of `A` is never stored, so with `A` holding
only that member the sheet `user` is missing.  The claim says two sheets in both
cases, as the document with `user` holding `name` and `address` gets. -/
theorem C3_proto_key_loses_sheet :
    processJSON (.obj [("__proto__",
          .obj [("name", .str "Al"), ("address", .obj [("city", .str "X")])])]) [] ""
        = some [("__proto___address",
            [[("Sheet Data", .str "SHEET::__proto___address"), ("city", .str "X")]])]
      ∧ processJSON (.obj [("user",
          .obj [("__proto__", .num 1), ("address", .obj [("city", .str "X")])])]) [] ""
        = some [("user_address", [[("Sheet Data", .str "SHEET::user_address"),
            ("city", .str "X")]])]
      ∧ processJSON userDoc [] ""
        = some [("user_address", [[("Sheet Data", .str "SHEET::user_address"),
              ("city", .str "X")]]),
            ("user", [[("Sheet Data", .str "SHEET::user"), ("name", .str "Al")]])] :=
  ⟨rfl, rfl, rfl⟩

/-- C4, as stated, fails for an object with a key that is an array index: for
the object with `0:5` and `z:1` the row is created with `Sheet Data` first, but
its columns are enumerated as `0`, `Sheet Data`, `z`, so `Sheet Data` is not
followed by the pairs of the object in key order. -/
theorem C4_index_key_precedes_marker :
    processJSON (.obj [("0", .num 5), ("z", .num 1)]) [] ""
        = some [("", [[("Sheet Data", .str "SHEET::"), ("0", .num 5), ("z", .num 1)]])]
      ∧ ownEntries [("Sheet Data", JVal.str "SHEET::"), ("0", .num 5), ("z", .num 1)]
        = [("0", .num 5), ("Sheet Data", .str "SHEET::"), ("z", .num 1)]
      ∧ ¬ ∃ row, processJSON (.obj [("0", .num 5), ("z", .num 1)]) [] "" = some [("", [row])]
          ∧ (ownEntries row).map Prod.fst = ["Sheet Data", "0", "z"] := by
  refine ⟨rfl, rfl, ?_⟩
  rintro ⟨row, h1, h2⟩
  rw [show processJSON (.obj [("0", .num 5), ("z", .num 1)]) [] ""
    = some [("", [[("Sheet Data", .str "SHEET::"), ("0", .num 5), ("z", .num 1)]])] from rfl] at h1
  simp only [Option.some.injEq, List.cons.injEq, Prod.mk.injEq, and_true, true_and] at h1
  subst h1
  revert h2
  decide

/-- C4, amended: for every non-empty JSON object `o` whose values are all
scalars and which has no key `Sheet Data` and no key `__proto__`, `processJSON`
from the empty workbook with the empty prefix yields exactly one sheet, named by
the empty string, holding exactly one row: `Sheet Data` with the value `SHEET::`
and the pairs of `o`.  The columns of the row are the keys of `o` that are array
indices, in ascending order, then `Sheet Data`, then the other keys of `o` in
key order; when no key of `o` is an array index this is `Sheet Data` followed by
the pairs of `o` in key order. -/
theorem C4_scalar_only_root (o : Row) (h : ScalarObj o) :
    processJSON (.obj o) [] ""
        = some [("", [("Sheet Data", JVal.str "SHEET::") :: ownEntries o])]
      ∧ ownEntries (("Sheet Data", JVal.str "SHEET::") :: ownEntries o)
        = indexEntries o ++ ("Sheet Data", JVal.str "SHEET::") :: plainEntries o
      ∧ ((∀ p ∈ o, (arrayIndex? p.1).isSome = false) →
          ownEntries (("Sheet Data", JVal.str "SHEET::") :: ownEntries o)
            = ("Sheet Data", JVal.str "SHEET::") :: o) := by
  have hk : protoKey ≠ sliceInit "" := by decide
  refine ⟨?_, ownEntries_cons_ownEntries _ o rfl, fun hp => ?_⟩
  · rw [processJSON_scalarObj o [] "" h, assign_of_ne _ _ _ (fun e => hk e.symm)]
    rfl
  · rw [ownEntries_of_plain o hp]
    apply ownEntries_of_plain
    intro p hm
    rcases List.mem_cons.mp hm with e | e
    · subst e; rfl
    · exact hp p e

/-- C4, amended, at the object with `x:1` and `y:2`, no key of which is an array
index. -/
theorem C4_scalar_only_root_witness :
    ScalarObj [("x", JVal.num 1), ("y", JVal.num 2)]
    ∧ (processJSON (.obj [("x", .num 1), ("y", .num 2)]) [] ""
        = some [("", [("Sheet Data", JVal.str "SHEET::")
            :: ownEntries [("x", JVal.num 1), ("y", JVal.num 2)]])]
      ∧ ownEntries (("Sheet Data", JVal.str "SHEET::")
            :: ownEntries [("x", JVal.num 1), ("y", JVal.num 2)])
        = indexEntries [("x", JVal.num 1), ("y", JVal.num 2)]
            ++ ("Sheet Data", JVal.str "SHEET::") :: plainEntries [("x", JVal.num 1), ("y", JVal.num 2)]
      ∧ ((∀ p ∈ [("x", JVal.num 1), ("y", JVal.num 2)], (arrayIndex? p.1).isSome = false) →
          ownEntries (("Sheet Data", JVal.str "SHEET::")
              :: ownEntries [("x", JVal.num 1), ("y", JVal.num 2)])
            = ("Sheet Data", JVal.str "SHEET::") :: [("x", JVal.num 1), ("y", JVal.num 2)])) :=
  ⟨by decide, C4_scalar_only_root [("x", .num 1), ("y", .num 2)] (by decide)⟩

/-- C5, at the failing input: on the document with `a_b` holding `x:1` and `a`
holding `b` holding `y:2` the code leaves the single sheet `a_b` with the row
of `y`; the scalar leaf `x:1` is in no row of any sheet. -/
theorem C5_collision_loses_leaf :
    processJSON collisionDoc [] ""
        = some [("a_b", [[("Sheet Data", .str "SHEET::a_b"), ("y", .num 2)]])]
      ∧ ¬ ∃ wb name table row, processJSON collisionDoc [] "" = some wb
          ∧ getProp wb name = some table ∧ row ∈ table ∧ getProp row "x" = some (.num 1) := by
  refine ⟨rfl, ?_⟩
  rintro ⟨wb, name, table, row, h1, h2, h3, h4⟩
  rw [show processJSON collisionDoc [] ""
    = some [("a_b", [[("Sheet Data", .str "SHEET::a_b"), ("y", .num 2)]])] from rfl] at h1
  cases h1
  by_cases hn : "a_b" = name
  · simp [getProp, hn] at h2
    subst h2
    simp at h3
    subst h3
    simp [getProp] at h4
  · simp [getProp, hn] at h2

/-- C6, at the failing inputs: an array of records whose element is the empty
object, or an object whose only key holds a nested object, makes the code throw
(the result `none`) instead of completing. -/
theorem C6_record_without_scalars_throws :
    processJSON (.obj [("k", .arr [.obj []])]) [] "" = none
      ∧ processJSON (.obj [("k", .arr [.obj [("a", .obj [("b", .num 1)])]])]) [] "" = none :=
  ⟨rfl, rfl⟩

/-- C7, at the failing inputs: the code drops an empty array.  The document
with `tags` holding the empty array leaves the empty workbook, and next to a
scalar `id` the row of the object has no column `tags`. -/
theorem C7_empty_array_is_dropped :
    processJSON (.obj [("tags", .arr [])]) [] "" = some []
      ∧ processJSON (.obj [("id", .num 7), ("tags", .arr [])]) [] ""
        = some [("", [[("Sheet Data", .str "SHEET::"), ("id", .num 7)]])] :=
  ⟨rfl, rfl⟩

/-- C8, at the failing inputs: the code decomposes an array of numbers.  The
array `1, 2, 3` under `k` becomes a sheet named `k` whose row has the columns
`0`, `1`, `2`, and the row of the enclosing object has no column `k`. -/
theorem C8_scalar_array_gets_a_sheet :
    processJSON (.obj [("k", .arr [.num 1, .num 2, .num 3])]) [] ""
        = some [("k", [[("Sheet Data", .str "SHEET::k"), ("0", .num 1), ("1", .num 2),
            ("2", .num 3)]])]
      ∧ processJSON (.obj [("n", .num 5), ("k", .arr [.num 1, .num 2, .num 3])]) [] ""
        = some [("k", [[("Sheet Data", .str "SHEET::k"), ("0", .num 1), ("1", .num 2),
              ("2", .num 3)]]),
            ("", [[("Sheet Data", .str "SHEET::"), ("n", .num 5)]])] :=
  ⟨rfl, rfl⟩

/-- C9, at the failing inputs: the code drops a `null` value.  The document
with `k` holding `null` leaves the empty workbook, and next to a scalar `id`
the row of the object has no column `k`. -/
theorem C9_null_is_dropped :
    processJSON (.obj [("k", .null)]) [] "" = some []
      ∧ processJSON (.obj [("id", .num 7), ("k", .null)]) [] ""
        = some [("", [[("Sheet Data", .str "SHEET::"), ("id", .num 7)]])] :=
  ⟨rfl, rfl⟩

/-- C10, as stated, fails for an object with a scalar key that is an array
index: for the object with `0:5` the first column of the row is `0`, not
`Sheet Data`. -/
theorem C10_index_key_is_first_column :
    processJSON (.obj [("0", .num 5)]) [] ""
        = some [("", [[("Sheet Data", .str "SHEET::"), ("0", .num 5)]])]
      ∧ (ownEntries [("Sheet Data", JVal.str "SHEET::"), ("0", .num 5)]).head?
        = some ("0", .num 5)
      ∧ ¬ ∃ wb row, processJSON (.obj [("0", .num 5)]) [] "" = some wb
          ∧ getProp wb "" = some [row]
          ∧ ((ownEntries row).map Prod.fst).head? = some "Sheet Data" := by
  refine ⟨rfl, rfl, ?_⟩
  rintro ⟨wb, row, h1, h2, h3⟩
  rw [show processJSON (.obj [("0", .num 5)]) [] ""
    = some [("", [[("Sheet Data", .str "SHEET::"), ("0", .num 5)]])] from rfl] at h1
  cases h1
  simp [getProp] at h2
  subst h2
  revert h3
  decide

/-- C10, amended: for every JSON object `o` (distinct keys) with at least one
scalar-valued key and no scalar-valued key named `Sheet Data` or `__proto__`,
every workbook and every prefix `P` that is empty or is a name `N` followed by
an underscore (`N` empty for the empty prefix, and `N` other than `__proto__`),
whenever `processJSON` completes it leaves under `N` a table of exactly one row,
which holds `Sheet Data` with the value `SHEET::` followed by `N` and exactly
the scalar key/value pairs of `o`.  The columns of the row are the scalar keys
of `o` that are array indices, in ascending order, then `Sheet Data`, then the
other scalar keys of `o` in key order. -/
theorem C10_sheet_data_marker (o : List (String × JVal)) (sheets wb : Workbook) (P N : String)
    (hP : (P = "" ∧ N = "") ∨ P = N ++ "_") (hN : N ≠ "__proto__")
    (hnd : (o.map Prod.fst).Nodup) (hsc : ∃ p ∈ o, isScalar p.2 = true)
    (hsd : ∀ p ∈ o, isScalar p.2 = true → p.1 ≠ "Sheet Data" ∧ p.1 ≠ "__proto__")
    (hrun : processJSON (.obj o) sheets P = some wb) :
    getProp wb N
        = some [("Sheet Data", JVal.str ("SHEET::" ++ N))
            :: ownEntries (o.filter (fun e => isScalar e.2))]
      ∧ ownEntries (("Sheet Data", JVal.str ("SHEET::" ++ N))
            :: ownEntries (o.filter (fun e => isScalar e.2)))
        = indexEntries (o.filter (fun e => isScalar e.2))
            ++ ("Sheet Data", JVal.str ("SHEET::" ++ N))
              :: plainEntries (o.filter (fun e => isScalar e.2)) := by
  have hs : sliceInit P = N := by
    rcases hP with ⟨h1, h2⟩ | h
    · subst h1; subst h2; rfl
    · subst h; exact sliceInit_append_underscore N
  have := processJSON_own_row o sheets wb P (by rw [hs]; exact hN) hnd hsc hsd hrun
  rw [hs] at this
  exact ⟨this, ownEntries_cons_ownEntries _ _ rfl⟩

/-- C10, amended, at the object with `name`, the index key `3` and a nested
`address`, the prefix `user_` and a workbook that already has a sheet. -/
theorem C10_sheet_data_marker_witness :
    (((("user_" : String) = "" ∧ ("user" : String) = "") ∨ ("user_" : String) = "user" ++ "_")
      ∧ ("user" : String) ≠ "__proto__"
      ∧ ([("3", JVal.bool true), ("name", JVal.str "Al"),
            ("address", JVal.obj [("city", JVal.str "X")])].map Prod.fst).Nodup
      ∧ (∃ p ∈ [("3", JVal.bool true), ("name", JVal.str "Al"),
            ("address", JVal.obj [("city", JVal.str "X")])], isScalar p.2 = true)
      ∧ (∀ p ∈ [("3", JVal.bool true), ("name", JVal.str "Al"),
            ("address", JVal.obj [("city", JVal.str "X")])],
          isScalar p.2 = true → p.1 ≠ "Sheet Data" ∧ p.1 ≠ "__proto__")
      ∧ processJSON (.obj [("3", .bool true), ("name", .str "Al"),
            ("address", .obj [("city", .str "X")])]) [("old", [])] "user_"
        = some [("old", []), ("user_address", [[("Sheet Data", .str "SHEET::user_address"),
              ("city", .str "X")]]),
            ("user", [[("Sheet Data", .str "SHEET::user"), ("3", .bool true),
              ("name", .str "Al")]])])
    ∧ (getProp [("old", []), ("user_address", [[("Sheet Data", JVal.str "SHEET::user_address"),
              ("city", JVal.str "X")]]),
            ("user", [[("Sheet Data", JVal.str "SHEET::user"), ("3", JVal.bool true),
              ("name", JVal.str "Al")]])] "user"
        = some [("Sheet Data", JVal.str ("SHEET::" ++ "user"))
            :: ownEntries ([("3", JVal.bool true), ("name", JVal.str "Al"),
                ("address", JVal.obj [("city", JVal.str "X")])].filter (fun e => isScalar e.2))]
      ∧ ownEntries (("Sheet Data", JVal.str ("SHEET::" ++ "user"))
            :: ownEntries ([("3", JVal.bool true), ("name", JVal.str "Al"),
                ("address", JVal.obj [("city", JVal.str "X")])].filter (fun e => isScalar e.2)))
        = indexEntries ([("3", JVal.bool true), ("name", JVal.str "Al"),
                ("address", JVal.obj [("city", JVal.str "X")])].filter (fun e => isScalar e.2))
            ++ ("Sheet Data", JVal.str ("SHEET::" ++ "user"))
              :: plainEntries ([("3", JVal.bool true), ("name", JVal.str "Al"),
                ("address", JVal.obj [("city", JVal.str "X")])].filter
                  (fun e => isScalar e.2))) :=
  ⟨⟨by decide, by decide, by decide, by decide, by decide, rfl⟩,
    C10_sheet_data_marker [("3", .bool true), ("name", .str "Al"),
        ("address", .obj [("city", .str "X")])]
      [("old", [])] _ "user_" "user" (by decide) (by decide) (by decide) (by decide) (by decide)
      rfl⟩

/-- C11: for every workbook, every prefix and every value that is `null`, a
string, a number or a boolean, `processJSON` returns without failing and leaves
the workbook exactly as it was. -/
theorem C11_non_object_input_is_noop (v : JVal) (wb : Workbook) (P : String)
    (hv : v = .null ∨ isScalar v = true) : processJSON v wb P = some wb := by
  rcases hv with h | h
  · subst h; simp [processJSON]
  · cases v <;> simp [isScalar] at h <;> simp [processJSON]

/-- C11 at the string `x`, a workbook with one sheet and the prefix `p_`. -/
theorem C11_non_object_input_is_noop_witness :
    (JVal.str "x" = .null ∨ isScalar (JVal.str "x") = true)
    ∧ processJSON (.str "x") [("s", [[("a", .num 1)]])] "p_"
        = some [("s", [[("a", .num 1)]])] :=
  ⟨Or.inr rfl, C11_non_object_input_is_noop (.str "x") _ "p_" (Or.inr rfl)⟩

/-- C12, as stated, fails at the root: the object whose only key is the empty
string, holding `a:1`, has no scalar key, yet the workbook ends with an entry
under the empty name, the stripped empty prefix. -/
theorem C12_empty_key_takes_root_name :
    processJSON emptyKeyDoc [] ""
        = some [("", [[("Sheet Data", .str "SHEET::"), ("a", .num 1)]])]
      ∧ ¬ ∀ wb, processJSON emptyKeyDoc [] "" = some wb → getProp wb (sliceInit "") = none := by
  refine ⟨rfl, fun h => ?_⟩
  have := h _ rfl
  simp [getProp, sliceInit] at this

/-- C12, amended: for every prefix `P` and every JSON object `o` none of whose
keys holds a scalar, provided `P` is non-empty or no key of `o` is the empty
string: if `processJSON` on `o` from the empty workbook completes, the workbook
has no entry under `P` without its last character, and every entry it has
starts with `P` followed by a key of `o`; for the empty object the workbook
stays empty. -/
theorem C12_no_scalar_level_no_own_sheet (o : List (String × JVal)) (P : String)
    (wb : Workbook) (hns : ∀ p ∈ o, isScalar p.2 = false)
    (hP : P ≠ "" ∨ ∀ p ∈ o, p.1 ≠ "") (h : processJSON (.obj o) [] P = some wb) :
    getProp wb (sliceInit P) = none
      ∧ (∀ name, getProp wb name ≠ none → ∃ p ∈ o, StartsWith name (P ++ p.1))
      ∧ processJSON (.obj []) [] P = some [] := by
  have hbar : barren (.obj o) = true := by
    simp only [barren, List.all_eq_true]
    intro p hp
    simp [hns p hp]
  simp only [processJSON] at h
  cases hl : forEachKey o P [] [] with
  | none => simp [hl, finishLoop] at h
  | some r =>
    obtain ⟨c1, w1⟩ := r
    simp only [hl, finishLoop, Option.some.injEq] at h
    have hc1 : c1 = [] := by
      rw [forEachKey_cur o P [] c1 [] w1 hl, scalarMembers_of_barren o hbar]
      rfl
    subst hc1
    have hw : wb = w1 := by rw [← h]; simp [finish]
    subst hw
    have f := (forEachKey_frame o (fun p _ => framed_all p.2) P [] [] [] wb hl).2
    have key : ∀ name, getProp wb name ≠ none → ∃ p ∈ o, StartsWith name (P ++ p.1) := by
      intro name hne
      by_contra hcon
      apply hne
      rw [f name (fun p hp hs => hcon ⟨p, hp, hs⟩)]
      rfl
    refine ⟨?_, key, by simp [processJSON, forEachKey, finishLoop, finish]⟩
    by_contra hne
    obtain ⟨p, hp, hs⟩ := key _ hne
    rcases hP with h1 | h2
    · exact not_startsWith_sliceInit P h1 (startsWith_append _ _ _ hs)
    · have hl := length_le_of_startsWith _ _ hs
      rw [sliceInit_length, String.length_append] at hl
      apply h2 p hp
      have h0 : p.1.length = 0 := by omega
      cases hp1 : p.1 with
      | mk d =>
        rw [hp1] at h0
        simp [String.length] at h0
        simp [h0]

/-- C12, amended, at the object whose key `a` holds a nested object, with the
prefix `p_`. -/
theorem C12_no_scalar_level_no_own_sheet_witness :
    ((∀ p ∈ [("a", JVal.obj [("b", JVal.num 1)])], isScalar p.2 = false)
      ∧ (("p_" : String) ≠ "" ∨ ∀ p ∈ [("a", JVal.obj [("b", JVal.num 1)])], p.1 ≠ "")
      ∧ processJSON (.obj [("a", .obj [("b", .num 1)])]) [] "p_"
          = some [("p_a", [[("Sheet Data", .str "SHEET::p_a"), ("b", .num 1)]])])
    ∧ (getProp [("p_a", [[("Sheet Data", JVal.str "SHEET::p_a"), ("b", JVal.num 1)]])]
          (sliceInit "p_") = none
      ∧ (∀ name, getProp [("p_a", [[("Sheet Data", JVal.str "SHEET::p_a"), ("b", JVal.num 1)]])]
            name ≠ none →
          ∃ p ∈ [("a", JVal.obj [("b", JVal.num 1)])], StartsWith name ("p_" ++ p.1))
      ∧ processJSON (.obj []) [] "p_" = some []) :=
  ⟨⟨by decide, Or.inl (by decide), rfl⟩,
    C12_no_scalar_level_no_own_sheet [("a", .obj [("b", .num 1)])] "p_" _ (by decide)
      (Or.inl (by decide)) rfl⟩

/-- C13, at the failing input: the sub-tree under the key `a_b` and the
sub-tree under `a` then `b` both resolve to the sheet name `a_b`; decomposed
together, the table of the first is overwritten by the second. -/
theorem C13_two_positions_one_name :
    processJSON (.obj [("a_b", .obj [("x", .num 1)])]) [] ""
        = some [("a_b", [[("Sheet Data", .str "SHEET::a_b"), ("x", .num 1)]])]
      ∧ processJSON (.obj [("a", .obj [("b", .obj [("y", .num 2)])])]) [] ""
        = some [("a_b", [[("Sheet Data", .str "SHEET::a_b"), ("y", .num 2)]])]
      ∧ processJSON (.obj [("a_b", .obj [("x", .num 1)]),
            ("a", .obj [("b", .obj [("y", .num 2)])])]) [] ""
        = some [("a_b", [[("Sheet Data", .str "SHEET::a_b"), ("y", .num 2)]])] :=
  ⟨rfl, rfl, rfl⟩

/-- C14, as stated, fails on its own example: for the document with `user`
holding `name` and the nested `address`, the sheet `user_address` is inserted
first and `user` after it, not `user` then `user_address`. -/
theorem C14_own_row_is_inserted_last :
    processJSON userDoc [] ""
        = some [("user_address", [[("Sheet Data", .str "SHEET::user_address"),
              ("city", .str "X")]]),
            ("user", [[("Sheet Data", .str "SHEET::user"), ("name", .str "Al")]])]
      ∧ ¬ ∃ wb, processJSON userDoc [] "" = some wb
          ∧ wb.map Prod.fst = ["user", "user_address"] := by
  refine ⟨rfl, ?_⟩
  rintro ⟨wb, h1, h2⟩
  rw [show processJSON userDoc [] "" = some [("user_address",
      [[("Sheet Data", .str "SHEET::user_address"), ("city", .str "X")]]),
    ("user", [[("Sheet Data", .str "SHEET::user"), ("name", .str "Al")]])] from rfl] at h1
  cases h1
  simp at h2

/-- C14, amended: the sheets are inserted in depth-first post-order, not
pre-order.  For every JSON value and every prefix, if `processJSON` from the
empty workbook completes, no key of the document is `__proto__`, and the names
it writes to (the sheet names and the temporary names of array elements) are
pairwise distinct and none of them is `__proto__`, then the names of the
workbook in insertion order are `postOrder`: the sheets under an earlier key
before the sheets under a later key, the sheet of an array of records before the
sheets under its elements, and the sheet of an object (its own row) after the
sheets of everything nested under its keys. -/
theorem C14_sheets_in_post_order (v : JVal) (P : String) (wb : Workbook)
    (hrun : processJSON v [] P = some wb) (hkeys : protoFree v = true)
    (hproto : "__proto__" ∉ assignedNames v P) (hnd : (assignedNames v P).Nodup) :
    wb.map Prod.fst = postOrder v P := by
  have := (ordered_all v).1 [] P wb hrun hkeys hproto (by simpa using hnd)
  simpa using this

/-- C14, amended, at `orderDoc`: several root keys, an object nested three deep
and an array of records whose first element has a nested object. -/
theorem C14_sheets_in_post_order_witness :
    (processJSON orderDoc [] ""
        = some [("user_address_geo", [[("Sheet Data", .str "SHEET::user_address_geo"),
              ("lat", .num 1)]]),
            ("user_address", [[("Sheet Data", .str "SHEET::user_address"),
              ("city", .str "X")]]),
            ("user", [[("Sheet Data", .str "SHEET::user"), ("name", .str "Al")]]),
            ("items", [[("Sheet Data", .str "SHEET::items_1"), ("a", .num 1)],
              [("Sheet Data", .str "SHEET::items_2"), ("a", .num 2)]]),
            ("items_1_d", [[("Sheet Data", .str "SHEET::items_1_d"), ("e", .num 2)]]),
            ("tags", [[("Sheet Data", .str "SHEET::tags"), ("t", .num 1)]]),
            ("", [[("Sheet Data", .str "SHEET::"), ("id", .num 7)]])]
      ∧ protoFree orderDoc = true
      ∧ "__proto__" ∉ assignedNames orderDoc ""
      ∧ (assignedNames orderDoc "").Nodup)
    ∧ ([("user_address_geo", [[("Sheet Data", JVal.str "SHEET::user_address_geo"),
              ("lat", JVal.num 1)]]),
            ("user_address", [[("Sheet Data", JVal.str "SHEET::user_address"),
              ("city", JVal.str "X")]]),
            ("user", [[("Sheet Data", JVal.str "SHEET::user"), ("name", JVal.str "Al")]]),
            ("items", [[("Sheet Data", JVal.str "SHEET::items_1"), ("a", JVal.num 1)],
              [("Sheet Data", JVal.str "SHEET::items_2"), ("a", JVal.num 2)]]),
            ("items_1_d", [[("Sheet Data", JVal.str "SHEET::items_1_d"), ("e", JVal.num 2)]]),
            ("tags", [[("Sheet Data", JVal.str "SHEET::tags"), ("t", JVal.num 1)]]),
            ("", [[("Sheet Data", JVal.str "SHEET::"), ("id", JVal.num 7)]])].map Prod.fst
        = postOrder orderDoc "")
    ∧ postOrder orderDoc ""
        = ["user_address_geo", "user_address", "user", "items", "items_1_d", "tags", ""] :=
  ⟨⟨rfl, by decide, by decide, by decide⟩,
    C14_sheets_in_post_order orderDoc "" _ rfl (by decide) (by decide) (by decide),
    by decide⟩

/-- C15, at the failing inputs: when `Y` itself has a key `Sheet Data`, its
value replaces the marker of the surviving row; and when the only key of `Y` is
`__proto__`, its pair is never stored, `Y` gets no row, nothing is overwritten
and the row built from `X` stays in the workbook. -/
theorem C15_marker_or_overwrite_lost :
    processJSON (.obj [("a_b", .obj [("x", .num 1)]),
          ("a", .obj [("b", .obj [("Sheet Data", .str "q")])])]) [] ""
        = some [("a_b", [[("Sheet Data", .str "q")]])]
      ∧ (¬ ∃ wb row, processJSON (.obj [("a_b", .obj [("x", .num 1)]),
            ("a", .obj [("b", .obj [("Sheet Data", .str "q")])])]) [] "" = some wb
          ∧ getProp wb "a_b" = some [row]
          ∧ getProp row "Sheet Data" = some (.str "SHEET::a_b"))
      ∧ processJSON (.obj [("a_b", .obj [("x", .num 1)]),
          ("a", .obj [("b", .obj [("__proto__", .num 2)])])]) [] ""
        = some [("a_b", [[("Sheet Data", .str "SHEET::a_b"), ("x", .num 1)]])] := by
  refine ⟨rfl, ?_, rfl⟩
  rintro ⟨wb, row, h1, h2, h3⟩
  rw [show processJSON (.obj [("a_b", .obj [("x", .num 1)]),
      ("a", .obj [("b", .obj [("Sheet Data", .str "q")])])]) [] ""
    = some [("a_b", [[("Sheet Data", .str "q")]])] from rfl] at h1
  cases h1
  simp [getProp] at h2
  subst h2
  simp [getProp] at h3

/-- C16: for every JSON value, every workbook and every prefix `P`, if
`processJSON` completes then every entry whose name is neither `P` without its
last character nor a string that starts with `P` is left unchanged: it is
neither added, nor replaced, nor deleted. -/
theorem C16_writes_confined_to_prefix (v : JVal) (wb wb' : Workbook) (P name : String)
    (h : processJSON v wb P = some wb') (h1 : name ≠ sliceInit P)
    (h2 : ¬ StartsWith name P) : getProp wb' name = getProp wb name :=
  ((framed_all v).1 wb P wb' h).2 name h2 (fun _ => h1)

/-- C16 at the object with `name` and a nested `address`, the prefix `user_`
and a workbook that has the sheets `old` and `user`: `old` is left as it was. -/
theorem C16_writes_confined_to_prefix_witness :
    (processJSON (.obj [("name", .str "Al"), ("address", .obj [("city", .str "X")])])
          [("old", [[("x", .num 1)]]), ("user", [])] "user_"
        = some [("old", [[("x", .num 1)]]),
            ("user", [[("Sheet Data", .str "SHEET::user"), ("name", .str "Al")]]),
            ("user_address", [[("Sheet Data", .str "SHEET::user_address"),
              ("city", .str "X")]])]
      ∧ ("old" : String) ≠ sliceInit "user_" ∧ ¬ StartsWith "old" "user_")
    ∧ getProp [("old", [[("x", JVal.num 1)]]),
            ("user", [[("Sheet Data", JVal.str "SHEET::user"), ("name", JVal.str "Al")]]),
            ("user_address", [[("Sheet Data", JVal.str "SHEET::user_address"),
              ("city", JVal.str "X")]])] "old"
      = getProp [("old", [[("x", JVal.num 1)]]), ("user", [])] "old" :=
  ⟨⟨rfl, by decide, fun hs => absurd (length_le_of_startsWith _ _ hs) (by decide)⟩,
    C16_writes_confined_to_prefix
      (.obj [("name", .str "Al"), ("address", .obj [("city", .str "X")])]) _ _ "user_" "old" rfl
      (by decide)
      (fun hs => absurd (length_le_of_startsWith _ _ hs) (by decide))⟩

/-- C17, at the failing inputs: when an element itself has a scalar key
`Sheet Data`, its value replaces the marker of the merged row; and when the only
scalar key of an element is `__proto__`, its pair is never stored, the element
gets no temporary sheet and the merge of line 28 throws. -/
theorem C17_marker_lost_or_throws :
    processJSON (.obj [("k", .arr [.obj [("Sheet Data", .str "z"),
          ("c", .obj [("b", .num 1)])]])]) [] ""
        = some [("k", [[("Sheet Data", .str "z")]]),
            ("k_1_c", [[("Sheet Data", .str "SHEET::k_1_c"), ("b", .num 1)]])]
      ∧ (¬ ∃ wb row, processJSON (.obj [("k", .arr [.obj [("Sheet Data", .str "z"),
            ("c", .obj [("b", .num 1)])]])]) [] "" = some wb
          ∧ getProp wb "k" = some [row]
          ∧ getProp row "Sheet Data" = some (.str "SHEET::k_1"))
      ∧ processJSON (.obj [("k", .arr [.obj [("__proto__", .num 1),
          ("c", .obj [("b", .num 1)])]])]) [] "" = none := by
  refine ⟨rfl, ?_, rfl⟩
  rintro ⟨wb, row, h1, h2, h3⟩
  rw [show processJSON (.obj [("k", .arr [.obj [("Sheet Data", .str "z"),
      ("c", .obj [("b", .num 1)])]])]) [] ""
    = some [("k", [[("Sheet Data", .str "z")]]),
        ("k_1_c", [[("Sheet Data", .str "SHEET::k_1_c"), ("b", .num 1)]])] from rfl] at h1
  cases h1
  simp [getProp] at h2
  subst h2
  simp [getProp] at h3

/-- C18: for every key `k` and every non-empty array whose first element has
`typeof` equal to `'object'`, if some element gets no row of its own (it is
`null` or a scalar, or none of its keys holds a string, number or boolean),
then `processJSON` on the object holding the array under `k`, from the empty
workbook with the empty prefix, throws instead of returning a workbook. -/
theorem C18_record_without_scalars_aborts (k : String) (arr : List JVal)
    (hrec : isRecords arr = true) (hbar : ∃ x ∈ arr, barren x = true) :
    processJSON (.obj [(k, .arr arr)]) [] "" = none := by
  have hm : mergeItems arr 0 ("" ++ k) (assign [] ("" ++ k) []) = none := by
    apply mergeItems_throws arr hbar
    · exact nodup_assign _ _ _ (by simp)
    · intro name hne
      left
      by_contra e
      apply hne
      rw [getProp_assign_ne _ _ _ _ e]
      rfl
  rw [processJSON, forEachKey, visit_arr_records _ _ _ _ _ hrec, hm]
  rfl

/-- C18 at the array that holds the record `a:1` and then `null`. -/
theorem C18_record_without_scalars_aborts_witness :
    (isRecords [JVal.obj [("a", JVal.num 1)], JVal.null] = true
      ∧ ∃ x ∈ [JVal.obj [("a", JVal.num 1)], JVal.null], barren x = true)
    ∧ processJSON (.obj [("k", .arr [.obj [("a", .num 1)], .null])]) [] "" = none :=
  ⟨⟨rfl, .null, by simp, rfl⟩,
    C18_record_without_scalars_aborts "k" [.obj [("a", .num 1)], .null] rfl
      ⟨.null, by simp, rfl⟩⟩

end JsonToExcel
